import Mathlib

/-!
Verification of the elevator dispatch core (src/elevator.cc) against its
natural-language specification.

The C++ source is shallowly embedded: the global arrays
(floors, directions, destinations, higher_floors_pressed,
lower_floors_pressed, up_button, down_button) become explicit state records,
the `std::priority_queue`s become sorted lists whose head is the top
element (ascending order for the min-heap of higher floors, descending
order for the max-heap of lower floors), failed asserts and thrown
`std::invalid_argument` become `Except.error`, and the body of the
scheduling loop in `move` becomes one step function `moveStep`, so that
the run-to-stop loop is the iteration `moveRun`.  All per-elevator
operations touch a single elevator plus the shared button board, so the
state carries one elevator together with the board; the elevator-id range
asserts of the source are dropped with it.
-/

/-- NUM_ELEVATORS from elevator.cc line 8. -/
def NUM_ELEVATORS : Nat := 2

/-- NUM_FLOORS from elevator.cc line 9. -/
def NUM_FLOORS : Nat := 5

/-- The `direction` enum of elevator.cc lines 13-21, in source order. -/
inductive direction where
  | up
  | down
  | neutral
  | retrieval_above_going_up
  | retrieval_above_going_down
  | retrieval_below_going_up
  | retrieval_below_going_down
  deriving DecidableEq, Repr

/-- The numeric value of each `direction` enumerator (C++ enums count from 0).
`press_outside` uses the enum value as an array index. -/
def dirVal : direction → Nat
  | .up => 0
  | .down => 1
  | .neutral => 2
  | .retrieval_above_going_up => 3
  | .retrieval_above_going_down => 4
  | .retrieval_below_going_up => 5
  | .retrieval_below_going_down => 6

/-- The shared hall-call board: `up_button` and `down_button` arrays of
elevator.cc lines 35-36 (length NUM_FLOORS in every reachable state). -/
structure Board where
  up_button : List Bool
  down_button : List Bool
  deriving DecidableEq, Repr

/-- Read `up_button[f]` (out-of-range reads default to false; the source
never reads out of range in reachable states). -/
def upB (b : Board) (f : Nat) : Bool := b.up_button.getD f false

/-- Read `down_button[f]`. -/
def downB (b : Board) (f : Nat) : Bool := b.down_button.getD f false

/-- One elevator's slice of the global arrays of elevator.cc lines 24-32:
`floors[i]`, `directions[i]`, `destinations[i]` (with -1 as the "no
destination" sentinel, as in the source), and the two cabin-request
priority queues.  `higher_floors_pressed` is the min-heap
(`std::greater` comparator), embedded as an ascending sorted list whose
head is the top; `lower_floors_pressed` is the max-heap, embedded as a
descending sorted list whose head is the top. -/
structure Elevator where
  floor : Nat
  dir : direction
  destination : Int
  higher_floors_pressed : List Nat
  lower_floors_pressed : List Nat
  deriving DecidableEq, Repr

/-- The whole mutable state seen by one elevator: the shared board plus
that elevator's slice. -/
structure State where
  board : Board
  elev : Elevator
  deriving DecidableEq, Repr

/-- `push` on the min-heap `higher_floors_pressed`: insert keeping the list
ascending, so the head stays the smallest element.  Duplicates are kept,
exactly as `std::priority_queue::push` keeps them. -/
def pq_push_min (x : Nat) : List Nat → List Nat
  | [] => [x]
  | y :: ys => if x ≤ y then x :: y :: ys else y :: pq_push_min x ys

/-- `push` on the max-heap `lower_floors_pressed`: insert keeping the list
descending, so the head stays the largest element. -/
def pq_push_max (x : Nat) : List Nat → List Nat
  | [] => [x]
  | y :: ys => if y ≤ x then x :: y :: ys else y :: pq_push_max x ys

/-- `top_of_pq_equal_floor` of elevator.cc lines 291-297:
`!pq.empty() && pq.top() == floor`. -/
def top_of_pq_equal_floor (pq : List Nat) (floor : Nat) : Bool :=
  match pq with
  | [] => false
  | t :: _ => t == floor

/-- The board after `reset()` (elevator.cc lines 41-44): all buttons
unpressed. -/
def resetBoard : Board :=
  { up_button := List.replicate NUM_FLOORS false
    down_button := List.replicate NUM_FLOORS false }

/-- One elevator after `reset()` (elevator.cc lines 46-52): bottom floor,
neutral, destination sentinel -1, both queues empty. -/
def resetElev : Elevator :=
  { floor := 0
    dir := .neutral
    destination := -1
    higher_floors_pressed := []
    lower_floors_pressed := [] }

/-- The state after `reset()`. -/
def resetState : State := { board := resetBoard, elev := resetElev }

/-- `press_outside(floor, dir)` of elevator.cc lines 55-80.  The failed
range assert and the thrown `std::invalid_argument`s become errors.
Note the source writes `up_button[dir] = true` and `down_button[dir] = true`
(lines 62 and 69): the array is indexed with the direction enum value, not
with `floor`; the embedding reproduces this. -/
def press_outside (floor : Nat) (dir : direction) (b : Board) : Except String Board :=
  if floor < NUM_FLOORS then
    match dir with
    | .up =>
        if floor = NUM_FLOORS - 1 then
          .error "there is no up button on topmost floor"
        else
          .ok { b with up_button := b.up_button.set (dirVal .up) true }
    | .down =>
        if floor = 0 then
          .error "there is no down button on floor 1"
        else
          .ok { b with down_button := b.down_button.set (dirVal .down) true }
    | _ => .error "there is no button for the neutral and retrieval cases"
  else .error "there is no floor"

/-- `press_inside(elevator, floor)` of elevator.cc lines 82-111 (the
elevator-id range assert is dropped with the id).  If the current mode is
retrieval_above_going_down or retrieval_below_going_up it is first reset to
neutral (the destination is left untouched, as in the source).  The final
match mirrors the same-floor switch; retrieval_above_going_down and
retrieval_below_going_up have no case there in the source (the switch falls
through doing nothing), hence the catch-all arm. -/
def press_inside (e : Elevator) (floor : Nat) : Except String Elevator :=
  if floor < NUM_FLOORS then
    let e :=
      if e.dir = .retrieval_above_going_down ∨ e.dir = .retrieval_below_going_up then
        { e with dir := .neutral }
      else e
    if floor > e.floor then
      .ok { e with higher_floors_pressed := pq_push_min floor e.higher_floors_pressed }
    else if floor < e.floor then
      .ok { e with lower_floors_pressed := pq_push_max floor e.lower_floors_pressed }
    else
      match e.dir with
      | .up | .retrieval_above_going_up =>
          .ok { e with higher_floors_pressed := pq_push_min floor e.higher_floors_pressed }
      | .down | .retrieval_below_going_down =>
          .ok { e with lower_floors_pressed := pq_push_max floor e.lower_floors_pressed }
      | .neutral =>
          .ok { e with dir := .up
                       higher_floors_pressed := pq_push_min floor e.higher_floors_pressed }
      | _ => .ok e
  else .error "there is no floor"

/-- `unpress_external_button(dir, floor)` of elevator.cc lines 279-288
(called only with up or down; the console notification is dropped). -/
def unpress_external_button (dir : direction) (floor : Nat) (b : Board) : Board :=
  if dir = .up then { b with up_button := b.up_button.set floor false }
  else { b with down_button := b.down_button.set floor false }

/-- `open(elevator)` of elevator.cc lines 113-136 (named openOp because
`open` is reserved in Lean).  Pops each queue head that equals the current
floor, then clears the external button of the mode's family; in neutral the
source throws `std::invalid_argument`.  (In the C++ the pops precede the
throw, but the exception is never caught, so the partially mutated state is
unobservable and the embedding reports only the error.) -/
def openOp (e : Elevator) (b : Board) : Except String (Elevator × Board) :=
  let floor := e.floor
  let higher :=
    if top_of_pq_equal_floor e.higher_floors_pressed floor then
      e.higher_floors_pressed.tail
    else e.higher_floors_pressed
  let lower :=
    if top_of_pq_equal_floor e.lower_floors_pressed floor then
      e.lower_floors_pressed.tail
    else e.lower_floors_pressed
  match e.dir with
  | .up | .retrieval_above_going_up | .retrieval_below_going_up =>
      .ok ({ e with higher_floors_pressed := higher, lower_floors_pressed := lower },
           unpress_external_button .up floor b)
  | .down | .retrieval_above_going_down | .retrieval_below_going_down =>
      .ok ({ e with higher_floors_pressed := higher, lower_floors_pressed := lower },
           unpress_external_button .down floor b)
  | .neutral => .error "the elevator shouldn't open while in neutral"

/-- Result of one iteration of the scheduling loop in `move`
(elevator.cc lines 140-247): either the loop decides to stop and open
(`stop`, carrying the state at exit), or it keeps looping (`cont`), or the
inner neutral search finds no candidate and spins forever (`spin`), or a
one-floor move hits its range assert (`fault`). -/
inductive Tick where
  | stop (e : Elevator)
  | cont (e : Elevator)
  | spin
  | fault
  deriving DecidableEq, Repr

/-- `move_up_one_floor` of elevator.cc lines 249-253: asserts
`floors[elevator] < NUM_FLOORS - 1` then increments. -/
def move_up_one_floor (e : Elevator) : Tick :=
  if e.floor < NUM_FLOORS - 1 then .cont { e with floor := e.floor + 1 } else .fault

/-- `move_down_one_floor` of elevator.cc lines 255-259: asserts
`floors[elevator] > 0` then decrements. -/
def move_down_one_floor (e : Elevator) : Tick :=
  if e.floor > 0 then .cont { e with floor := e.floor - 1 } else .fault

/-- The for-loop of the neutral search (elevator.cc lines 227-242), run over
an explicit list of offsets (`i = 1 .. NUM_FLOORS-1`): at each offset the
source first checks `floor + i` (when `floor + i < NUM_FLOORS`), then
`floor - i` (when `floor - i >= 0`, i.e. `i ≤ floor` on naturals); the first
floor with any external button set decides the retrieval mode and the
destination. -/
def scanOffsets (b : Board) (floor : Nat) : List Nat → Option (direction × Nat)
  | [] => none
  | i :: rest =>
    if floor + i < NUM_FLOORS && (upB b (floor + i) || downB b (floor + i)) then
      some ((if upB b (floor + i) then .retrieval_above_going_up
             else .retrieval_above_going_down), floor + i)
    else if decide (i ≤ floor) && (upB b (floor - i) || downB b (floor - i)) then
      some ((if upB b (floor - i) then .retrieval_below_going_up
             else .retrieval_below_going_down), floor - i)
    else scanOffsets b floor rest

/-- One iteration of the `while (!should_open_now)` loop of `move`
(elevator.cc lines 142-246), translated case by case from the switch.
The neutral case embeds one pass of the inner `while (searching)` body:
if neither the cabin-queue branch nor the offset scan fires, the inner loop
repeats with unchanged state forever, which is `Tick.spin`. -/
def moveStep (b : Board) (e : Elevator) : Tick :=
  let floor := e.floor
  match e.dir with
  | .up =>
      if upB b floor || top_of_pq_equal_floor e.higher_floors_pressed floor then
        .stop e
      else if e.higher_floors_pressed.isEmpty then
        .cont { e with dir := .neutral }
      else move_up_one_floor e
  | .retrieval_above_going_up =>
      if upB b floor || e.destination == (floor : Int) ||
          top_of_pq_equal_floor e.higher_floors_pressed floor then
        if e.destination == (floor : Int) then
          .stop { e with destination := -1, dir := .up }
        else .stop e
      else if !(upB b e.destination.toNat) then
        .cont { e with dir := .neutral, destination := -1 }
      else move_up_one_floor e
  | .retrieval_below_going_up =>
      if !(upB b e.destination.toNat) then
        .cont { e with dir := .neutral, destination := -1 }
      else if e.destination == (floor : Int) then
        .stop { e with destination := -1, dir := .up }
      else move_down_one_floor e
  | .down =>
      if downB b floor || top_of_pq_equal_floor e.lower_floors_pressed floor then
        .stop e
      else if e.lower_floors_pressed.isEmpty then
        .cont { e with dir := .neutral }
      else move_down_one_floor e
  | .retrieval_above_going_down =>
      if !(downB b e.destination.toNat) then
        .cont { e with dir := .neutral, destination := -1 }
      else if e.destination == (floor : Int) then
        .stop { e with destination := -1, dir := .down }
      else move_up_one_floor e
  | .retrieval_below_going_down =>
      if downB b floor || e.destination == (floor : Int) ||
          top_of_pq_equal_floor e.lower_floors_pressed floor then
        if e.destination == (floor : Int) then
          .stop { e with destination := -1, dir := .down }
        else .stop e
      else if !(downB b e.destination.toNat) then
        .cont { e with dir := .neutral, destination := -1 }
      else move_down_one_floor e
  | .neutral =>
      if !e.higher_floors_pressed.isEmpty || !e.lower_floors_pressed.isEmpty then
        .cont { e with dir :=
          if e.higher_floors_pressed.length > e.lower_floors_pressed.length then .up
          else .down }
      else
        match scanOffsets b floor (List.range' 1 (NUM_FLOORS - 1)) with
        | some r => .cont { e with dir := r.1, destination := (r.2 : Int) }
        | none => .spin

/-- `move(elevator)` run with explicit fuel: iterate `moveStep` until a stop
is decided; `none` when the fuel runs out or the loop spins or faults. -/
def moveRun (b : Board) : Nat → Elevator → Option Elevator
  | 0, _ => none
  | n + 1, e =>
    match moveStep b e with
    | .stop e' => some e'
    | .cont e' => moveRun b n e'
    | .spin => none
    | .fault => none

/-- Spec-side definition (follows the words of the spec, for comparison with
`scanOffsets`): the order in which the neutral search visits floors — for
each offset `i = 1 .. NUM_FLOORS-1`, first `floor + i` (when in range), then
`floor - i` (when in range). -/
def specScanOrder (floor : Nat) : List Nat :=
  (List.range' 1 (NUM_FLOORS - 1)).flatMap fun i =>
    (if floor + i < NUM_FLOORS then [floor + i] else []) ++
    (if i ≤ floor then [floor - i] else [])

/-- A floor with any hall-call flag set. -/
def hallFlagged (b : Board) (f : Nat) : Bool := upB b f || downB b f

/-- Spec-side definition (follows the words of the spec): the retrieval mode
the neutral search selects for a matching floor `f` — the `up` flag selects
retrieval_above_going_up / retrieval_below_going_up (above/below by the sign
of the offset), otherwise the `*Down` counterpart. -/
def specSelect (b : Board) (floor f : Nat) : direction :=
  if floor < f then
    if upB b f then .retrieval_above_going_up else .retrieval_above_going_down
  else
    if upB b f then .retrieval_below_going_up else .retrieval_below_going_down

/-- The modes whose `open()` clears the up flag (elevator.cc lines 121-124). -/
def upFamily (d : direction) : Prop :=
  d = .up ∨ d = .retrieval_above_going_up ∨ d = .retrieval_below_going_up

/-- The modes whose `open()` clears the down flag (elevator.cc lines 126-129). -/
def downFamily (d : direction) : Prop :=
  d = .down ∨ d = .retrieval_above_going_down ∨ d = .retrieval_below_going_down

/-- The four retrieval modes. -/
def retrievalMode (d : direction) : Prop :=
  d = .retrieval_above_going_up ∨ d = .retrieval_above_going_down ∨
  d = .retrieval_below_going_up ∨ d = .retrieval_below_going_down

/-- States reachable from `reset()` through the exposed operations, at the
granularity of one scheduling-loop iteration per step (the spec drives the
scheduler tick-by-tick): successful hall calls, successful cabin requests,
successful open cycles, and single scheduler ticks (both those that keep
looping and those that decide a stop). -/
inductive Reachable : State → Prop where
  | reset : Reachable resetState
  | hall (s : State) (f : Nat) (d : direction) (b' : Board) :
      Reachable s → press_outside f d s.board = .ok b' → Reachable { board := b', elev := s.elev }
  | cabin (s : State) (f : Nat) (e' : Elevator) :
      Reachable s → press_inside s.elev f = .ok e' → Reachable { board := s.board, elev := e' }
  | openCycle (s : State) (e' : Elevator) (b' : Board) :
      Reachable s → openOp s.elev s.board = .ok (e', b') → Reachable { board := b', elev := e' }
  | tick (s : State) (e' : Elevator) :
      Reachable s → moveStep s.board s.elev = .cont e' → Reachable { board := s.board, elev := e' }
  | tickStop (s : State) (e' : Elevator) :
      Reachable s → moveStep s.board s.elev = .stop e' → Reachable { board := s.board, elev := e' }

/-- The state invariant maintained by every reachable state: the floor is in
range, the queues are sorted with in-range entries on the correct side of
the elevator, a retrieval destination lies on the side of the elevator its
mode names, and the two direction-mismatch retrieval modes occur only with
both cabin queues empty. -/
structure ElevInv (s : State) : Prop where
  floor_lt : s.elev.floor < NUM_FLOORS
  higher_sorted : s.elev.higher_floors_pressed.Sorted (· ≤ ·)
  lower_sorted : s.elev.lower_floors_pressed.Sorted (· ≥ ·)
  higher_mem : ∀ x ∈ s.elev.higher_floors_pressed, s.elev.floor ≤ x ∧ x < NUM_FLOORS
  lower_mem : ∀ x ∈ s.elev.lower_floors_pressed, x ≤ s.elev.floor
  dest_above : s.elev.dir = .retrieval_above_going_up ∨
      s.elev.dir = .retrieval_above_going_down →
      (s.elev.floor : Int) ≤ s.elev.destination ∧ s.elev.destination < (NUM_FLOORS : Int)
  dest_below : s.elev.dir = .retrieval_below_going_up ∨
      s.elev.dir = .retrieval_below_going_down →
      0 ≤ s.elev.destination ∧ s.elev.destination ≤ (s.elev.floor : Int)
  mismatch_empty : s.elev.dir = .retrieval_above_going_down ∨
      s.elev.dir = .retrieval_below_going_up →
      s.elev.higher_floors_pressed = [] ∧ s.elev.lower_floors_pressed = []

/-- Claim C1.  The validation side of the claim matches the code, but the
success side does not: on an all-clear board, `press_outside(2, up)` — an
in-range, non-topmost floor with a genuine direction — succeeds yet leaves
`up_button[2]` unset, setting `up_button[0]` instead, because line 62 of
elevator.cc indexes the array with the enum value of `dir` rather than with
`floor`.  So the claim "it idempotently sets the board flag for that
direction at the given floor, leaving all other board flags unchanged"
fails on the code. -/
theorem C1_indexing_bug :
    press_outside 2 .up resetBoard =
      .ok { up_button := [true, false, false, false, false]
            down_button := [false, false, false, false, false] } ∧
    (Board.up_button { up_button := [true, false, false, false, false]
                       down_button := [false, false, false, false, false] }).getD 2 false
      = false := by
  constructor
  · rfl
  · rfl

/-- Claim C2.  End-to-end scenario A fails on the code: after `reset()`,
`register_hall_call(3, Up)` sets `up_button[0]` instead of `up_button[3]`
(the indexing bug of line 62), so the first scheduler evaluation of
elevator 0 — at floor 0 in neutral with empty queues — scans offsets 1..4,
finds no pressed button at any floor other than its own, and the inner
neutral search spins forever; the elevator never enters
retrieval_above_going_up with destination 3. -/
theorem C2_scenarioA_bug :
    press_outside 3 .up resetBoard =
      .ok { up_button := [true, false, false, false, false]
            down_button := [false, false, false, false, false] } ∧
    (Board.up_button { up_button := [true, false, false, false, false]
                       down_button := [false, false, false, false, false] }).getD 3 false
      = false ∧
    moveStep { up_button := [true, false, false, false, false]
               down_button := [false, false, false, false, false] } resetElev = .spin := by
  refine ⟨rfl, rfl, rfl⟩

/-- Claim C9, counterexample.  The cabin queues are not sets: with
elevator 0 at floor 0 in neutral, requesting floor 3 twice leaves two
entries for floor 3 in the ascending queue, so the second insertion is not
idempotent and one `open()` at floor 3 pops only one of them. -/
theorem C9_duplicate_counterexample :
    press_inside resetElev 3 =
      .ok { floor := 0, dir := .neutral, destination := -1
            higher_floors_pressed := [3], lower_floors_pressed := [] } ∧
    press_inside { floor := 0, dir := .neutral, destination := -1
                   higher_floors_pressed := [3], lower_floors_pressed := [] } 3 =
      .ok { floor := 0, dir := .neutral, destination := -1
            higher_floors_pressed := [3, 3], lower_floors_pressed := [] } ∧
    openOp { floor := 3, dir := .up, destination := -1
             higher_floors_pressed := [3, 3], lower_floors_pressed := [] } resetBoard =
      .ok ({ floor := 3, dir := .up, destination := -1
             higher_floors_pressed := [3], lower_floors_pressed := [] },
           { up_button := [false, false, false, false, false]
             down_button := [false, false, false, false, false] }) := by
  refine ⟨rfl, rfl, rfl⟩

/-- The source's neutral-search for-loop computes exactly "first flagged
floor in the spec's scan order, classified by side and flag". -/
theorem scanOffsets_eq_find (b : Board) (floor : Nat) :
    ∀ l : List Nat, (∀ i ∈ l, 1 ≤ i) →
      scanOffsets b floor l =
        ((l.flatMap fun i =>
            (if floor + i < NUM_FLOORS then [floor + i] else []) ++
            (if i ≤ floor then [floor - i] else [])).find? (hallFlagged b)).map
          fun f => (specSelect b floor f, f) := by
  intro l hl
  induction l with
  | nil => rfl
  | cons i rest ih =>
    have hi : 1 ≤ i := hl i (List.mem_cons_self i rest)
    have hrest := ih fun j hj => hl j (List.mem_cons_of_mem i hj)
    have hlt : floor < floor + i := by omega
    simp only [List.flatMap_cons, List.find?_append, scanOffsets]
    by_cases h1 : floor + i < NUM_FLOORS
    · by_cases h2 : (upB b (floor + i) || downB b (floor + i)) = true
      · have hfl : hallFlagged b (floor + i) = true := h2
        simp [h1, h2, List.find?, hfl, specSelect, hlt]
      · have hfl : hallFlagged b (floor + i) = false := by
          simpa [hallFlagged] using h2
        by_cases h4 : i ≤ floor
        · have hnlt : ¬ floor < floor - i := by omega
          by_cases h5 : (upB b (floor - i) || downB b (floor - i)) = true
          · have hfl2 : hallFlagged b (floor - i) = true := h5
            simp [h1, h2, h4, h5, List.find?, hfl, hfl2, specSelect, hnlt]
          · have hfl2 : hallFlagged b (floor - i) = false := by
              simpa [hallFlagged] using h5
            simp [h1, h2, h4, h5, List.find?, hfl, hfl2, hrest]
        · simp [h1, h2, h4, List.find?, hfl, hrest]
    · by_cases h4 : i ≤ floor
      · have hnlt : ¬ floor < floor - i := by omega
        by_cases h5 : (upB b (floor - i) || downB b (floor - i)) = true
        · have hfl2 : hallFlagged b (floor - i) = true := h5
          simp [h1, h4, h5, List.find?, hfl2, specSelect, hnlt]
        · have hfl2 : hallFlagged b (floor - i) = false := by
            simpa [hallFlagged] using h5
          simp [h1, h4, h5, List.find?, hfl2, hrest]
      · simp [h1, h4, hrest]

/-- Claim C3.  The Neutral search policy: with a non-empty cabin queue the
scheduler switches to Up exactly when the ascending queue is strictly
larger, else Down, touching nothing else; with both queues empty it takes
the first floor of the spec's scan order (offsets 1..NUM_FLOORS-1,
`floor + i` before `floor - i`) carrying any hall-call flag, selects the
retrieval mode given by the flag and the side, and sets the destination to
that floor (and spins when no floor is flagged). -/
theorem C3_neutral_policy (b : Board) (e : Elevator) (hdir : e.dir = .neutral) :
    ((e.higher_floors_pressed ≠ [] ∨ e.lower_floors_pressed ≠ []) →
      moveStep b e = .cont { e with dir :=
        if e.higher_floors_pressed.length > e.lower_floors_pressed.length then .up
        else .down }) ∧
    (e.higher_floors_pressed = [] → e.lower_floors_pressed = [] →
      moveStep b e =
        match (specScanOrder e.floor).find? (hallFlagged b) with
        | some f => .cont { e with dir := specSelect b e.floor f, destination := (f : Int) }
        | none => .spin) := by
  constructor
  · intro hne
    have hq : (!e.higher_floors_pressed.isEmpty || !e.lower_floors_pressed.isEmpty) = true := by
      rcases hne with h | h <;> cases hh : e.higher_floors_pressed <;>
        cases hl : e.lower_floors_pressed <;> simp_all
    simp [moveStep, hdir, hq]
  · intro hh hl
    have hscan := scanOffsets_eq_find b e.floor (List.range' 1 (NUM_FLOORS - 1))
      (by decide)
    have horder : specScanOrder e.floor =
        (List.range' 1 (NUM_FLOORS - 1)).flatMap fun i =>
          (if e.floor + i < NUM_FLOORS then [e.floor + i] else []) ++
          (if i ≤ e.floor then [e.floor - i] else []) := rfl
    rw [← horder] at hscan
    simp only [moveStep, hdir, hh, hl, List.isEmpty_nil, Bool.not_true, Bool.or_self,
      Bool.false_eq_true, if_neg]
    rw [hscan]
    cases hf : (specScanOrder e.floor).find? (hallFlagged b) with
    | none => simp
    | some f => simp

/-- Witness for C3: a concrete neutral elevator at floor 0 with empty queues
and only the down flag of floor 1 set enters retrieval_above_going_down with
destination 1. -/
theorem C3_neutral_policy_witness :
    moveStep { up_button := [false, false, false, false, false]
               down_button := [false, true, false, false, false] } resetElev =
      .cont { resetElev with dir := .retrieval_above_going_down, destination := 1 } := by
  have h := (C3_neutral_policy
    { up_button := [false, false, false, false, false]
      down_button := [false, true, false, false, false] } resetElev rfl).2 rfl rfl
  rw [h]; decide

/-- Claim C4.  `press_inside` routing, evaluated against the elevator's
floor at call time: a higher floor goes to the ascending queue, a lower
floor to the descending queue; at the same floor, Up/RetrieveAboveUp go
ascending, Down/RetrieveBelowDown go descending, and Neutral switches the
mode to Up and goes ascending.  When the call arrives in
retrieval_above_going_down or retrieval_below_going_up the mode is first
force-reset to neutral, so the same-floor case then also yields Up. -/
theorem C4_cabin_routing (e : Elevator) (f : Nat) (hf : f < NUM_FLOORS) :
    ((e.dir ≠ .retrieval_above_going_down ∧ e.dir ≠ .retrieval_below_going_up) →
      (e.floor < f → press_inside e f =
          .ok { e with higher_floors_pressed := pq_push_min f e.higher_floors_pressed }) ∧
      (f < e.floor → press_inside e f =
          .ok { e with lower_floors_pressed := pq_push_max f e.lower_floors_pressed }) ∧
      (f = e.floor →
        ((e.dir = .up ∨ e.dir = .retrieval_above_going_up) → press_inside e f =
            .ok { e with higher_floors_pressed := pq_push_min f e.higher_floors_pressed }) ∧
        ((e.dir = .down ∨ e.dir = .retrieval_below_going_down) → press_inside e f =
            .ok { e with lower_floors_pressed := pq_push_max f e.lower_floors_pressed }) ∧
        (e.dir = .neutral → press_inside e f =
            .ok { e with dir := .up
                         higher_floors_pressed := pq_push_min f e.higher_floors_pressed }))) ∧
    ((e.dir = .retrieval_above_going_down ∨ e.dir = .retrieval_below_going_up) →
      (e.floor < f → press_inside e f =
          .ok { e with dir := .neutral
                       higher_floors_pressed := pq_push_min f e.higher_floors_pressed }) ∧
      (f < e.floor → press_inside e f =
          .ok { e with dir := .neutral
                       lower_floors_pressed := pq_push_max f e.lower_floors_pressed }) ∧
      (f = e.floor → press_inside e f =
          .ok { e with dir := .up
                       higher_floors_pressed := pq_push_min f e.higher_floors_pressed })) := by
  constructor
  · intro hnd
    have hno : ¬ (e.dir = .retrieval_above_going_down ∨ e.dir = .retrieval_below_going_up) := by
      rintro (h | h)
      · exact hnd.1 h
      · exact hnd.2 h
    refine ⟨?_, ?_, ?_⟩
    · intro hgt
      simp [press_inside, hf, hno, hgt]
    · intro hlt
      have h1 : ¬ f > e.floor := by omega
      simp [press_inside, hf, hno, hlt, h1]
    · intro heq
      have h1 : ¬ f > e.floor := by omega
      have h2 : ¬ f < e.floor := by omega
      refine ⟨?_, ?_, ?_⟩
      · rintro (hd | hd) <;> simp [press_inside, hf, hno, h1, h2, hd]
      · rintro (hd | hd) <;> simp [press_inside, hf, hno, h1, h2, hd]
      · intro hd
        simp [press_inside, hf, hno, h1, h2, hd]
  · intro hd
    refine ⟨?_, ?_, ?_⟩
    · intro hgt
      rcases hd with h | h <;> simp [press_inside, hf, h, hgt]
    · intro hlt
      have h1 : ¬ f > e.floor := by omega
      rcases hd with h | h <;> simp [press_inside, hf, h, hlt, h1]
    · intro heq
      have h1 : ¬ f > e.floor := by omega
      have h2 : ¬ f < e.floor := by omega
      rcases hd with h | h <;> simp [press_inside, hf, h, h1, h2]

/-- Witness for C4: from the reset state, requesting floor 3 (above floor 0)
lands in the ascending queue. -/
theorem C4_cabin_routing_witness :
    press_inside resetElev 3 = .ok { resetElev with higher_floors_pressed := [3] } := by
  have h := ((C4_cabin_routing resetElev 3 (by decide)).1
    ⟨by decide, by decide⟩).1 (by decide)
  exact h

/-- Setting an entry to false makes the (false-default) read at that index
false, whether or not the index is in range. -/
theorem getD_set_false (l : List Bool) (i : Nat) : (l.set i false).getD i false = false := by
  induction l generalizing i with
  | nil => simp [List.getD]
  | cons x xs ih =>
    cases i with
    | zero => simp [List.getD]
    | succ n => simpa [List.getD] using ih n

/-- Setting one entry leaves every other (false-default) read unchanged. -/
theorem getD_set_ne (l : List Bool) (i j : Nat) (a : Bool) (h : j ≠ i) :
    (l.set i a).getD j false = l.getD j false := by
  induction l generalizing i j with
  | nil => simp
  | cons x xs ih =>
    cases i with
    | zero =>
      cases j with
      | zero => exact absurd rfl h
      | succ m => simp [List.getD]
    | succ n =>
      cases j with
      | zero => simp [List.getD]
      | succ m => simpa [List.getD] using ih n m (by omega)

/-- Claim C5.  `open()` in neutral is rejected with an invariant-violation
error; in every other mode it pops the ascending head when it equals the
current floor, independently pops the descending head when it equals the
current floor, clears the board flag of the mode's family (up flag for the
Up-family, down flag for the Down-family) at the current floor, and leaves
every other board flag, both queues otherwise, and the rest of the elevator
unchanged. -/
theorem C5_open_contract (e : Elevator) (b : Board) :
    (e.dir = .neutral → openOp e b = .error "the elevator shouldn't open while in neutral") ∧
    (e.dir ≠ .neutral → ∃ e' b', openOp e b = .ok (e', b') ∧
      e'.floor = e.floor ∧ e'.dir = e.dir ∧ e'.destination = e.destination ∧
      e'.higher_floors_pressed =
        (if top_of_pq_equal_floor e.higher_floors_pressed e.floor then
          e.higher_floors_pressed.tail else e.higher_floors_pressed) ∧
      e'.lower_floors_pressed =
        (if top_of_pq_equal_floor e.lower_floors_pressed e.floor then
          e.lower_floors_pressed.tail else e.lower_floors_pressed) ∧
      (upFamily e.dir →
        b'.up_button.getD e.floor false = false ∧
        (∀ j, j ≠ e.floor → b'.up_button.getD j false = b.up_button.getD j false) ∧
        b'.down_button = b.down_button) ∧
      (downFamily e.dir →
        b'.down_button.getD e.floor false = false ∧
        (∀ j, j ≠ e.floor → b'.down_button.getD j false = b.down_button.getD j false) ∧
        b'.up_button = b.up_button)) := by
  obtain ⟨fl, dir, dest, hi, lo⟩ := e
  cases dir with
  | neutral => exact ⟨fun _ => rfl, fun hne => absurd rfl hne⟩
  | up =>
    refine ⟨fun h => direction.noConfusion h, fun _ => ?_⟩
    exact ⟨_, _, rfl, rfl, rfl, rfl, rfl, rfl,
      fun _ => ⟨getD_set_false _ _, fun j hj => getD_set_ne _ _ _ _ hj, rfl⟩,
      fun hdf => by simp [downFamily] at hdf⟩
  | retrieval_above_going_up =>
    refine ⟨fun h => direction.noConfusion h, fun _ => ?_⟩
    exact ⟨_, _, rfl, rfl, rfl, rfl, rfl, rfl,
      fun _ => ⟨getD_set_false _ _, fun j hj => getD_set_ne _ _ _ _ hj, rfl⟩,
      fun hdf => by simp [downFamily] at hdf⟩
  | retrieval_below_going_up =>
    refine ⟨fun h => direction.noConfusion h, fun _ => ?_⟩
    exact ⟨_, _, rfl, rfl, rfl, rfl, rfl, rfl,
      fun _ => ⟨getD_set_false _ _, fun j hj => getD_set_ne _ _ _ _ hj, rfl⟩,
      fun hdf => by simp [downFamily] at hdf⟩
  | down =>
    refine ⟨fun h => direction.noConfusion h, fun _ => ?_⟩
    exact ⟨_, _, rfl, rfl, rfl, rfl, rfl, rfl,
      fun huf => by simp [upFamily] at huf,
      fun _ => ⟨getD_set_false _ _, fun j hj => getD_set_ne _ _ _ _ hj, rfl⟩⟩
  | retrieval_above_going_down =>
    refine ⟨fun h => direction.noConfusion h, fun _ => ?_⟩
    exact ⟨_, _, rfl, rfl, rfl, rfl, rfl, rfl,
      fun huf => by simp [upFamily] at huf,
      fun _ => ⟨getD_set_false _ _, fun j hj => getD_set_ne _ _ _ _ hj, rfl⟩⟩
  | retrieval_below_going_down =>
    refine ⟨fun h => direction.noConfusion h, fun _ => ?_⟩
    exact ⟨_, _, rfl, rfl, rfl, rfl, rfl, rfl,
      fun huf => by simp [upFamily] at huf,
      fun _ => ⟨getD_set_false _ _, fun j hj => getD_set_ne _ _ _ _ hj, rfl⟩⟩

/-- Witness for C5: a concrete non-neutral open at floor 2 with the
ascending head equal to the floor succeeds. -/
theorem C5_open_contract_witness :
    ∃ e' b',
      openOp { floor := 2, dir := .up, destination := -1
               higher_floors_pressed := [2, 4], lower_floors_pressed := [1] } resetBoard
        = .ok (e', b') ∧ e'.higher_floors_pressed = [4] := by
  obtain ⟨e', b', hok, -, -, -, hhi, -⟩ :=
    (C5_open_contract
      { floor := 2, dir := .up, destination := -1
        higher_floors_pressed := [2, 4], lower_floors_pressed := [1] } resetBoard).2
      (by decide)
  exact ⟨e', b', hok, by rw [hhi]; rfl⟩

/-- Claim C6, counterexample.  A reachable state violating the destination
invariant: from reset, a hall call for Down (which by the indexing bug sets
down_button[1]) and one scheduler tick put elevator 0 into
retrieval_above_going_down with destination 1; a cabin request for floor 0
then force-resets the mode (through neutral, to up) but leaves the stale
destination 1 in place, so the mode is not a retrieval mode while the
destination is not cleared. -/
theorem C6_destination_counterexample :
    Reachable { board := { up_button := [false, false, false, false, false]
                           down_button := [false, true, false, false, false] }
                elev := { floor := 0, dir := .up, destination := 1
                          higher_floors_pressed := [0], lower_floors_pressed := [] } } ∧
    ¬ retrievalMode (Elevator.dir { floor := 0, dir := .up, destination := 1
                                    higher_floors_pressed := [0]
                                    lower_floors_pressed := [] }) ∧
    Elevator.destination { floor := 0, dir := .up, destination := 1
                           higher_floors_pressed := [0]
                           lower_floors_pressed := [] } ≠ -1 := by
  refine ⟨?_, by simp [retrievalMode], by simp⟩
  have h1 : Reachable { board := { up_button := [false, false, false, false, false]
                                   down_button := [false, true, false, false, false] }
                        elev := resetElev } :=
    Reachable.hall resetState 2 .down _ Reachable.reset rfl
  have h2 : Reachable { board := { up_button := [false, false, false, false, false]
                                   down_button := [false, true, false, false, false] }
                        elev := { floor := 0, dir := .retrieval_above_going_down
                                  destination := 1
                                  higher_floors_pressed := [], lower_floors_pressed := [] } } :=
    Reachable.tick _ _ h1 rfl
  exact Reachable.cabin _ 0 _ h2 rfl

/-- Claim C6, amended.  The scheduler itself does clear the destination on
every loop transition that leaves a retrieval mode; and `press_inside` never
touches the destination — in particular its force-reset from
retrieval_above_going_down / retrieval_below_going_up to neutral leaves the
stale destination in place (which is what breaks the claim as stated). -/
theorem C6_destination_amended :
    ∀ (b : Board) (e e' : Elevator),
      (retrievalMode e.dir →
        (moveStep b e = .cont e' ∨ moveStep b e = .stop e') →
        ¬ retrievalMode e'.dir → e'.destination = -1) ∧
      (∀ f, press_inside e f = .ok e' → e'.destination = e.destination) := by
  intro b e e'
  obtain ⟨fl, dir, dest, hi, lo⟩ := e
  constructor
  · intro hr hstep hnr
    cases dir with
    | up => exact absurd hr (by simp [retrievalMode])
    | down => exact absurd hr (by simp [retrievalMode])
    | neutral => exact absurd hr (by simp [retrievalMode])
    | retrieval_above_going_up =>
        simp only [moveStep, move_up_one_floor, move_down_one_floor] at hstep
        rcases hstep with h | h <;> split_ifs at h <;>
          (cases h
           all_goals first | rfl | simp [retrievalMode] at hnr)
    | retrieval_above_going_down =>
        simp only [moveStep, move_up_one_floor, move_down_one_floor] at hstep
        rcases hstep with h | h <;> split_ifs at h <;>
          (cases h
           all_goals first | rfl | simp [retrievalMode] at hnr)
    | retrieval_below_going_up =>
        simp only [moveStep, move_up_one_floor, move_down_one_floor] at hstep
        rcases hstep with h | h <;> split_ifs at h <;>
          (cases h
           all_goals first | rfl | simp [retrievalMode] at hnr)
    | retrieval_below_going_down =>
        simp only [moveStep, move_up_one_floor, move_down_one_floor] at hstep
        rcases hstep with h | h <;> split_ifs at h <;>
          (cases h
           all_goals first | rfl | simp [retrievalMode] at hnr)
  · intro f hok
    cases dir <;> simp only [press_inside] at hok <;> split_ifs at hok <;>
      (cases hok; rfl)

/-- Witness for C6 amended: a retrieval_above_going_up elevator whose
target up flag is clear abandons to neutral with the destination cleared. -/
theorem C6_destination_amended_witness :
    Elevator.destination { floor := 0, dir := .neutral, destination := -1
                           higher_floors_pressed := [], lower_floors_pressed := [] } = -1 := by
  exact (C6_destination_amended resetBoard
    { floor := 0, dir := .retrieval_above_going_up, destination := 1
      higher_floors_pressed := [], lower_floors_pressed := [] }
    { floor := 0, dir := .neutral, destination := -1
      higher_floors_pressed := [], lower_floors_pressed := [] }).1
    (by simp [retrievalMode]) (Or.inl rfl) (by simp [retrievalMode])

/-- Pushing a floor onto the min-heap adds one more copy of it. -/
theorem count_pq_push_min (x : Nat) (l : List Nat) :
    (pq_push_min x l).count x = l.count x + 1 := by
  induction l with
  | nil => simp [pq_push_min]
  | cons y ys ih =>
    by_cases h : x ≤ y
    · simp [pq_push_min, h, List.count_cons]
    · simp only [pq_push_min, if_neg h, List.count_cons, ih]
      omega

/-- Pushing a floor onto the max-heap adds one more copy of it. -/
theorem count_pq_push_max (x : Nat) (l : List Nat) :
    (pq_push_max x l).count x = l.count x + 1 := by
  induction l with
  | nil => simp [pq_push_max]
  | cons y ys ih =>
    by_cases h : y ≤ x
    · simp [pq_push_max, h, List.count_cons]
    · simp only [pq_push_max, if_neg h, List.count_cons, ih]
      omega

/-- Claim C9, amended.  The cabin queues are priority heaps that admit
duplicates: every successful cabin request adds exactly one more copy of
the requested floor to exactly one of the two queues, leaving the other
queue unchanged (so re-inserting a floor already present is not
idempotent), and one `open()` removes at most the head of each queue, so
duplicated entries need as many stops. -/
theorem C9_duplicate_amended :
    ∀ (e : Elevator) (f : Nat) (e' : Elevator),
      press_inside e f = .ok e' →
      ((e'.higher_floors_pressed.count f = e.higher_floors_pressed.count f + 1 ∧
        e'.lower_floors_pressed = e.lower_floors_pressed) ∨
       (e'.lower_floors_pressed.count f = e.lower_floors_pressed.count f + 1 ∧
        e'.higher_floors_pressed = e.higher_floors_pressed)) ∧
      ∀ (b : Board) (p : Elevator × Board), openOp e' b = .ok p →
        (p.1.higher_floors_pressed = e'.higher_floors_pressed ∨
         p.1.higher_floors_pressed = e'.higher_floors_pressed.tail) ∧
        (p.1.lower_floors_pressed = e'.lower_floors_pressed ∨
         p.1.lower_floors_pressed = e'.lower_floors_pressed.tail) := by
  intro e f e' hok
  obtain ⟨fl, dir, dest, hi, lo⟩ := e
  constructor
  · cases dir <;> simp only [press_inside] at hok <;> split_ifs at hok <;>
      first
        | (exfalso; simp_all; done)
        | (cases hok; exact Or.inl ⟨count_pq_push_min f hi, rfl⟩)
        | (cases hok; exact Or.inr ⟨count_pq_push_max f lo, rfl⟩)
  · intro b p hop
    obtain ⟨fl2, dir2, dest2, hi2, lo2⟩ := e'
    cases dir2 <;> simp only [openOp] at hop
    case neutral => exact absurd hop (by simp)
    all_goals
      cases hop
      constructor
      · by_cases h : top_of_pq_equal_floor hi2 fl2 = true
        · exact Or.inr (by simp [h])
        · exact Or.inl (by simp [h])
      · by_cases h : top_of_pq_equal_floor lo2 fl2 = true
        · exact Or.inr (by simp [h])
        · exact Or.inl (by simp [h])

/-- Witness for C9 amended: requesting floor 3 from the reset state yields
one copy of 3 in the (previously empty) ascending queue. -/
theorem C9_duplicate_amended_witness :
    (Elevator.higher_floors_pressed
      { floor := 0, dir := .neutral, destination := -1
        higher_floors_pressed := [3], lower_floors_pressed := [] }).count 3 =
      (Elevator.higher_floors_pressed resetElev).count 3 + 1 := by
  rcases (C9_duplicate_amended resetElev 3
    { floor := 0, dir := .neutral, destination := -1
      higher_floors_pressed := [3], lower_floors_pressed := [] } rfl).1 with
    ⟨h, -⟩ | ⟨-, hcontra⟩
  · exact h
  · exact absurd hcontra (by decide)

/-- Membership in the min-heap after a push. -/
theorem mem_pq_push_min {z x : Nat} {l : List Nat} :
    z ∈ pq_push_min x l ↔ z = x ∨ z ∈ l := by
  induction l with
  | nil => simp [pq_push_min]
  | cons y ys ih =>
    by_cases h : x ≤ y
    · simp [pq_push_min, h]
    · simp only [pq_push_min, if_neg h, List.mem_cons, ih]
      tauto

/-- Membership in the max-heap after a push. -/
theorem mem_pq_push_max {z x : Nat} {l : List Nat} :
    z ∈ pq_push_max x l ↔ z = x ∨ z ∈ l := by
  induction l with
  | nil => simp [pq_push_max]
  | cons y ys ih =>
    by_cases h : y ≤ x
    · simp [pq_push_max, h]
    · simp only [pq_push_max, if_neg h, List.mem_cons, ih]
      tauto

/-- Pushing preserves ascending sortedness of the min-heap. -/
theorem sorted_pq_push_min (x : Nat) {l : List Nat} (h : l.Sorted (· ≤ ·)) :
    (pq_push_min x l).Sorted (· ≤ ·) := by
  induction l with
  | nil => simp [pq_push_min]
  | cons y ys ih =>
    obtain ⟨hy, hys⟩ := List.sorted_cons.mp h
    by_cases hc : x ≤ y
    · rw [show pq_push_min x (y :: ys) = x :: y :: ys from by simp [pq_push_min, hc]]
      refine List.sorted_cons.mpr ⟨?_, h⟩
      intro z hz
      rcases List.mem_cons.mp hz with rfl | hz
      · exact hc
      · exact le_trans hc (hy z hz)
    · rw [show pq_push_min x (y :: ys) = y :: pq_push_min x ys from by simp [pq_push_min, hc]]
      refine List.sorted_cons.mpr ⟨?_, ih hys⟩
      intro z hz
      rcases mem_pq_push_min.mp hz with rfl | hz
      · omega
      · exact hy z hz

/-- Pushing preserves descending sortedness of the max-heap. -/
theorem sorted_pq_push_max (x : Nat) {l : List Nat} (h : l.Sorted (· ≥ ·)) :
    (pq_push_max x l).Sorted (· ≥ ·) := by
  induction l with
  | nil => simp [pq_push_max]
  | cons y ys ih =>
    obtain ⟨hy, hys⟩ := List.sorted_cons.mp h
    by_cases hc : y ≤ x
    · rw [show pq_push_max x (y :: ys) = x :: y :: ys from by simp [pq_push_max, hc]]
      refine List.sorted_cons.mpr ⟨?_, h⟩
      intro z hz
      rcases List.mem_cons.mp hz with rfl | hz
      · exact hc
      · exact le_trans (hy z hz) hc
    · rw [show pq_push_max x (y :: ys) = y :: pq_push_max x ys from by simp [pq_push_max, hc]]
      refine List.sorted_cons.mpr ⟨?_, ih hys⟩
      intro z hz
      rcases mem_pq_push_max.mp hz with rfl | hz
      · omega
      · exact hy z hz

/-- The tail of a sorted list is sorted (any relation). -/
theorem sorted_tail {r : Nat → Nat → Prop} {l : List Nat} (h : l.Sorted r) :
    l.tail.Sorted r := by
  cases l with
  | nil => exact h
  | cons a as => exact (List.sorted_cons.mp h).2

/-- Members of the tail are members of the list. -/
theorem mem_of_mem_tail {z : Nat} {l : List Nat} (h : z ∈ l.tail) : z ∈ l := by
  cases l with
  | nil => exact h
  | cons a as => exact List.mem_cons_of_mem a h

/-- What a successful `press_inside` can do: the floor and destination are
untouched, the resulting mode is never one of the two force-reset modes and
is a retrieval mode only when it was unchanged, and each queue is either
untouched or receives the pressed floor, on the correct side of the
elevator. -/
theorem press_inside_cases {e : Elevator} {f : Nat} {e' : Elevator}
    (hok : press_inside e f = .ok e') :
    f < NUM_FLOORS ∧ e'.floor = e.floor ∧ e'.destination = e.destination ∧
    e'.dir ≠ .retrieval_above_going_down ∧ e'.dir ≠ .retrieval_below_going_up ∧
    (e'.dir = .retrieval_above_going_up → e.dir = .retrieval_above_going_up) ∧
    (e'.dir = .retrieval_below_going_down → e.dir = .retrieval_below_going_down) ∧
    (e'.higher_floors_pressed = e.higher_floors_pressed ∨
      (e.floor ≤ f ∧ e'.higher_floors_pressed = pq_push_min f e.higher_floors_pressed)) ∧
    (e'.lower_floors_pressed = e.lower_floors_pressed ∨
      (f ≤ e.floor ∧ e'.lower_floors_pressed = pq_push_max f e.lower_floors_pressed)) := by
  obtain ⟨fl, dir, dest, hi, lo⟩ := e
  cases dir <;> simp only [press_inside] at hok <;> split_ifs at hok <;> cases hok <;>
    first
      | (exfalso; simp_all; done)
      | (refine ⟨by assumption, rfl, rfl, by simp, by simp, by simp, by simp, ?_, ?_⟩ <;>
          first
            | exact Or.inl rfl
            | (refine Or.inr ⟨?_, rfl⟩
               try dsimp only at *
               omega))

/-- What a successful `open()` can do to the elevator: floor, mode and
destination are untouched, and each queue is either untouched or loses its
head. -/
theorem openOp_cases {e : Elevator} {b : Board} {e' : Elevator} {b' : Board}
    (hok : openOp e b = .ok (e', b')) :
    e'.floor = e.floor ∧ e'.dir = e.dir ∧ e'.destination = e.destination ∧
    (e'.higher_floors_pressed = e.higher_floors_pressed ∨
      e'.higher_floors_pressed = e.higher_floors_pressed.tail) ∧
    (e'.lower_floors_pressed = e.lower_floors_pressed ∨
      e'.lower_floors_pressed = e.lower_floors_pressed.tail) := by
  obtain ⟨fl, dir, dest, hi, lo⟩ := e
  cases dir <;> simp only [openOp] at hok
  case neutral => exact absurd hok (by simp)
  all_goals
    cases hok
    refine ⟨rfl, rfl, rfl, ?_, ?_⟩
    · by_cases h : top_of_pq_equal_floor hi fl = true
      · exact Or.inr (by simp [h])
      · exact Or.inl (by simp [h])
    · by_cases h : top_of_pq_equal_floor lo fl = true
      · exact Or.inr (by simp [h])
      · exact Or.inl (by simp [h])

/-- For an in-range floor, the spec scan order visits exactly the other
in-range floors. -/
theorem mem_specScanOrder {floor f : Nat} (hfl : floor < NUM_FLOORS) :
    f ∈ specScanOrder floor ↔ f < NUM_FLOORS ∧ f ≠ floor := by
  have h5 : NUM_FLOORS = 5 := rfl
  rw [h5] at hfl ⊢
  interval_cases floor
  case «0» =>
    rw [show specScanOrder 0 = [1, 2, 3, 4] from by decide]
    simp
    omega
  case «1» =>
    rw [show specScanOrder 1 = [2, 0, 3, 4] from by decide]
    simp
    omega
  case «2» =>
    rw [show specScanOrder 2 = [3, 1, 4, 0] from by decide]
    simp
    omega
  case «3» =>
    rw [show specScanOrder 3 = [4, 2, 1, 0] from by decide]
    simp
    omega
  case «4» =>
    rw [show specScanOrder 4 = [3, 2, 1, 0] from by decide]
    simp
    omega

/-- The invariant holds after `reset()`. -/
theorem elevInv_reset : ElevInv resetState := by
  constructor <;> simp [resetState, resetElev, NUM_FLOORS]

/-- The invariant ignores the board, so hall calls preserve it. -/
theorem elevInv_board_irrel {s : State} (h : ElevInv s) (b' : Board) :
    ElevInv { board := b', elev := s.elev } :=
  ⟨h.floor_lt, h.higher_sorted, h.lower_sorted, h.higher_mem, h.lower_mem,
   h.dest_above, h.dest_below, h.mismatch_empty⟩

/-- `press_inside` preserves the invariant. -/
theorem elevInv_cabin {s : State} {f : Nat} {e' : Elevator}
    (h : ElevInv s) (hok : press_inside s.elev f = .ok e') :
    ElevInv { board := s.board, elev := e' } := by
  obtain ⟨hf, hfloor, hdest, hnr1, hnr2, hrau, hrbd, hhi, hlo⟩ := press_inside_cases hok
  constructor
  · show e'.floor < NUM_FLOORS
    rw [hfloor]; exact h.floor_lt
  · show e'.higher_floors_pressed.Sorted (· ≤ ·)
    rcases hhi with h1 | ⟨hle, h1⟩ <;> rw [h1]
    · exact h.higher_sorted
    · exact sorted_pq_push_min f h.higher_sorted
  · show e'.lower_floors_pressed.Sorted (· ≥ ·)
    rcases hlo with h1 | ⟨hle, h1⟩ <;> rw [h1]
    · exact h.lower_sorted
    · exact sorted_pq_push_max f h.lower_sorted
  · show ∀ x ∈ e'.higher_floors_pressed, e'.floor ≤ x ∧ x < NUM_FLOORS
    intro x hx
    rw [hfloor]
    rcases hhi with h1 | ⟨hle, h1⟩
    · exact h.higher_mem x (h1 ▸ hx)
    · rcases mem_pq_push_min.mp (h1 ▸ hx) with rfl | hx2
      · exact ⟨hle, hf⟩
      · exact h.higher_mem x hx2
  · show ∀ x ∈ e'.lower_floors_pressed, x ≤ e'.floor
    intro x hx
    rw [hfloor]
    rcases hlo with h1 | ⟨hle, h1⟩
    · exact h.lower_mem x (h1 ▸ hx)
    · rcases mem_pq_push_max.mp (h1 ▸ hx) with rfl | hx2
      · exact hle
      · exact h.lower_mem x hx2
  · rintro (hd | hd)
    · rw [hfloor, hdest]; exact h.dest_above (Or.inl (hrau hd))
    · exact absurd hd hnr1
  · rintro (hd | hd)
    · exact absurd hd hnr2
    · rw [hfloor, hdest]; exact h.dest_below (Or.inr (hrbd hd))
  · rintro (hd | hd)
    · exact absurd hd hnr1
    · exact absurd hd hnr2

/-- `open()` preserves the invariant. -/
theorem elevInv_open {s : State} {e' : Elevator} {b' : Board}
    (h : ElevInv s) (hok : openOp s.elev s.board = .ok (e', b')) :
    ElevInv { board := b', elev := e' } := by
  obtain ⟨hfloor, hdir, hdest, hhi, hlo⟩ := openOp_cases hok
  constructor
  · show e'.floor < NUM_FLOORS
    rw [hfloor]; exact h.floor_lt
  · show e'.higher_floors_pressed.Sorted (· ≤ ·)
    rcases hhi with h1 | h1 <;> rw [h1]
    · exact h.higher_sorted
    · exact sorted_tail h.higher_sorted
  · show e'.lower_floors_pressed.Sorted (· ≥ ·)
    rcases hlo with h1 | h1 <;> rw [h1]
    · exact h.lower_sorted
    · exact sorted_tail h.lower_sorted
  · intro x hx
    rw [hfloor]
    rcases hhi with h1 | h1
    · exact h.higher_mem x (h1 ▸ hx)
    · exact h.higher_mem x (mem_of_mem_tail (h1 ▸ hx))
  · intro x hx
    rw [hfloor]
    rcases hlo with h1 | h1
    · exact h.lower_mem x (h1 ▸ hx)
    · exact h.lower_mem x (mem_of_mem_tail (h1 ▸ hx))
  · intro hd
    rw [hfloor, hdest]
    exact h.dest_above (by rw [← hdir]; exact hd)
  · intro hd
    rw [hfloor, hdest]
    exact h.dest_below (by rw [← hdir]; exact hd)
  · intro hd
    obtain ⟨he1, he2⟩ := h.mismatch_empty (by rw [← hdir]; exact hd)
    constructor
    · rcases hhi with h1 | h1 <;> simp [h1, he1]
    · rcases hlo with h1 | h1 <;> simp [h1, he2]

/-- A looping scheduler tick preserves the invariant. -/
theorem elevInv_tick {s : State} {e' : Elevator}
    (h : ElevInv s) (hstep : moveStep s.board s.elev = .cont e') :
    ElevInv { board := s.board, elev := e' } := by
  obtain ⟨b, e⟩ := s
  obtain ⟨fl, dir, dest, hi, lo⟩ := e
  obtain ⟨h1, h2, h3, h4, h5, h6, h7, h8⟩ := h
  dsimp only at h1 h2 h3 h4 h5 h6 h7 h8
  have hNF : NUM_FLOORS = 5 := rfl
  cases dir
  case up =>
    simp only [moveStep, move_up_one_floor] at hstep
    split_ifs at hstep with hc1 hc2 hc3 <;> cases hstep
    · -- switch to neutral: queues empty branch
      exact ⟨h1, h2, h3, h4, h5,
        by rintro (hd | hd) <;> exact direction.noConfusion hd,
        by rintro (hd | hd) <;> exact direction.noConfusion hd,
        by rintro (hd | hd) <;> exact direction.noConfusion hd⟩
    · -- move up one floor
      cases hi with
      | nil => simp at hc2
      | cons t rest =>
        have htne : t ≠ fl := by
          intro hteq
          exact hc1 (by simp [top_of_pq_equal_floor, hteq])
        have hmemt := h4 t (by simp)
        refine ⟨?_, h2, h3, ?_, ?_,
          by rintro (hd | hd) <;> exact direction.noConfusion hd,
          by rintro (hd | hd) <;> exact direction.noConfusion hd,
          by rintro (hd | hd) <;> exact direction.noConfusion hd⟩
        · show fl + 1 < NUM_FLOORS
          omega
        · intro x hx
          show fl + 1 ≤ x ∧ x < NUM_FLOORS
          have hx' := h4 x hx
          have hsx : t ≤ x := by
            rcases List.mem_cons.mp hx with rfl | hx2
            · exact le_refl x
            · exact (List.sorted_cons.mp h2).1 x hx2
          omega
        · intro x hx
          show x ≤ fl + 1
          have := h5 x hx
          omega
  case down =>
    simp only [moveStep, move_down_one_floor] at hstep
    split_ifs at hstep with hc1 hc2 hc3 <;> cases hstep
    · exact ⟨h1, h2, h3, h4, h5,
        by rintro (hd | hd) <;> exact direction.noConfusion hd,
        by rintro (hd | hd) <;> exact direction.noConfusion hd,
        by rintro (hd | hd) <;> exact direction.noConfusion hd⟩
    · cases lo with
      | nil => simp at hc2
      | cons t rest =>
        have htne : t ≠ fl := by
          intro hteq
          exact hc1 (by simp [top_of_pq_equal_floor, hteq])
        have hmemt := h5 t (by simp)
        refine ⟨?_, h2, h3, ?_, ?_,
          by rintro (hd | hd) <;> exact direction.noConfusion hd,
          by rintro (hd | hd) <;> exact direction.noConfusion hd,
          by rintro (hd | hd) <;> exact direction.noConfusion hd⟩
        · show fl - 1 < NUM_FLOORS
          omega
        · intro x hx
          show fl - 1 ≤ x ∧ x < NUM_FLOORS
          have hx' := h4 x hx
          omega
        · intro x hx
          show x ≤ fl - 1
          have hsx : x ≤ t := by
            rcases List.mem_cons.mp hx with rfl | hx2
            · exact le_refl x
            · exact (List.sorted_cons.mp h3).1 x hx2
          have := h5 t (by simp)
          omega
  case retrieval_above_going_up =>
    simp only [moveStep, move_up_one_floor] at hstep
    split_ifs at hstep with hc1 hc2 hc3 hc4 <;> cases hstep
    · -- abandon to neutral
      exact ⟨h1, h2, h3, h4, h5,
        by rintro (hd | hd) <;> exact direction.noConfusion hd,
        by rintro (hd | hd) <;> exact direction.noConfusion hd,
        by rintro (hd | hd) <;> exact direction.noConfusion hd⟩
    · -- move up toward the destination
      have hdne : ¬ dest = (fl : Int) := by
        intro hq
        exact hc1 (by simp [hq])
      obtain ⟨hda, hdb⟩ := h6 (Or.inl rfl)
      refine ⟨?_, h2, h3, ?_, ?_, ?_,
        by rintro (hd | hd) <;> exact direction.noConfusion hd,
        by rintro (hd | hd) <;> exact direction.noConfusion hd⟩
      · show fl + 1 < NUM_FLOORS
        omega
      · intro x hx
        show fl + 1 ≤ x ∧ x < NUM_FLOORS
        cases hi with
        | nil => cases hx
        | cons t rest =>
          have htne : t ≠ fl := by
            intro hteq
            exact hc1 (by simp [top_of_pq_equal_floor, hteq])
          have hmemt := h4 t (by simp)
          have hx' := h4 x hx
          have hsx : t ≤ x := by
            rcases List.mem_cons.mp hx with rfl | hx2
            · exact le_refl x
            · exact (List.sorted_cons.mp h2).1 x hx2
          omega
      · intro x hx
        show x ≤ fl + 1
        have := h5 x hx
        omega
      · rintro (hd | hd)
        · show (fl + 1 : Int) ≤ dest ∧ dest < (NUM_FLOORS : Int)
          omega
        · exact absurd hd (by exact fun hq => direction.noConfusion hq)
  case retrieval_above_going_down =>
    simp only [moveStep, move_up_one_floor] at hstep
    split_ifs at hstep with hc1 hc2 hc3 <;> cases hstep
    · exact ⟨h1, h2, h3, h4, h5,
        by rintro (hd | hd) <;> exact direction.noConfusion hd,
        by rintro (hd | hd) <;> exact direction.noConfusion hd,
        by rintro (hd | hd) <;> exact direction.noConfusion hd⟩
    · obtain ⟨hhiE, hloE⟩ := h8 (Or.inl rfl)
      subst hhiE; subst hloE
      obtain ⟨hda, hdb⟩ := h6 (Or.inr rfl)
      have hdne : ¬ dest = (fl : Int) := by
        intro hq
        exact hc2 (by simp [hq])
      refine ⟨?_, by simp, by simp, by simp, by simp, ?_, ?_, ?_⟩
      · show fl + 1 < NUM_FLOORS
        omega
      · rintro (hd | hd)
        · exact absurd hd (by exact fun hq => direction.noConfusion hq)
        · show (fl + 1 : Int) ≤ dest ∧ dest < (NUM_FLOORS : Int)
          omega
      · rintro (hd | hd) <;> exact direction.noConfusion hd
      · rintro (hd | hd)
        · show ([] : List Nat) = [] ∧ ([] : List Nat) = []
          exact ⟨rfl, rfl⟩
        · exact direction.noConfusion hd
  case retrieval_below_going_up =>
    simp only [moveStep, move_down_one_floor] at hstep
    split_ifs at hstep with hc1 hc2 hc3 <;> cases hstep
    · exact ⟨h1, h2, h3, h4, h5,
        by rintro (hd | hd) <;> exact direction.noConfusion hd,
        by rintro (hd | hd) <;> exact direction.noConfusion hd,
        by rintro (hd | hd) <;> exact direction.noConfusion hd⟩
    · obtain ⟨hhiE, hloE⟩ := h8 (Or.inr rfl)
      subst hhiE; subst hloE
      obtain ⟨hda, hdb⟩ := h7 (Or.inl rfl)
      have hdne : ¬ dest = (fl : Int) := by
        intro hq
        exact hc2 (by simp [hq])
      refine ⟨?_, by simp, by simp, by simp, by simp, ?_, ?_, ?_⟩
      · show fl - 1 < NUM_FLOORS
        omega
      · rintro (hd | hd) <;> exact direction.noConfusion hd
      · rintro (hd | hd)
        · show (0 : Int) ≤ dest ∧ dest ≤ ((fl - 1 : Nat) : Int)
          omega
        · exact direction.noConfusion hd
      · rintro (hd | hd)
        · exact direction.noConfusion hd
        · exact ⟨rfl, rfl⟩
  case retrieval_below_going_down =>
    simp only [moveStep, move_down_one_floor] at hstep
    split_ifs at hstep with hc1 hc2 hc3 hc4 <;> cases hstep
    · exact ⟨h1, h2, h3, h4, h5,
        by rintro (hd | hd) <;> exact direction.noConfusion hd,
        by rintro (hd | hd) <;> exact direction.noConfusion hd,
        by rintro (hd | hd) <;> exact direction.noConfusion hd⟩
    · have hdne : ¬ dest = (fl : Int) := by
        intro hq
        exact hc1 (by simp [hq])
      obtain ⟨hda, hdb⟩ := h7 (Or.inr rfl)
      refine ⟨?_, h2, h3, ?_, ?_,
        by rintro (hd | hd) <;> exact direction.noConfusion hd, ?_,
        by rintro (hd | hd) <;> exact direction.noConfusion hd⟩
      · show fl - 1 < NUM_FLOORS
        omega
      · intro x hx
        show fl - 1 ≤ x ∧ x < NUM_FLOORS
        have hx' := h4 x hx
        omega
      · intro x hx
        show x ≤ fl - 1
        cases lo with
        | nil => cases hx
        | cons t rest =>
          have htne : t ≠ fl := by
            intro hteq
            exact hc1 (by simp [top_of_pq_equal_floor, hteq])
          have hmemt := h5 t (by simp)
          have hsx : x ≤ t := by
            rcases List.mem_cons.mp hx with rfl | hx2
            · exact le_refl x
            · exact (List.sorted_cons.mp h3).1 x hx2
          omega
      · rintro (hd | hd)
        · exact absurd hd (by exact fun hq => direction.noConfusion hq)
        · show (0 : Int) ≤ dest ∧ dest ≤ ((fl - 1 : Nat) : Int)
          omega
  case neutral =>
    simp only [moveStep] at hstep
    split_ifs at hstep with hq hlen
    · cases hstep
      exact ⟨h1, h2, h3, h4, h5,
        by rintro (hd | hd) <;> exact direction.noConfusion hd,
        by rintro (hd | hd) <;> exact direction.noConfusion hd,
        by rintro (hd | hd) <;> exact direction.noConfusion hd⟩
    · cases hstep
      exact ⟨h1, h2, h3, h4, h5,
        by rintro (hd | hd) <;> exact direction.noConfusion hd,
        by rintro (hd | hd) <;> exact direction.noConfusion hd,
        by rintro (hd | hd) <;> exact direction.noConfusion hd⟩
    · have hhiE : hi = [] := by
        cases hi with
        | nil => rfl
        | cons a as => exact absurd (by simp) hq
      have hloE : lo = [] := by
        cases lo with
        | nil => rfl
        | cons a as => exact absurd (by simp [hhiE]) hq
      subst hhiE; subst hloE
      cases hscan : scanOffsets b fl (List.range' 1 (NUM_FLOORS - 1)) with
      | none => rw [hscan] at hstep; cases hstep
      | some r =>
        rw [hscan] at hstep
        cases hstep
        have hfind := scanOffsets_eq_find b fl (List.range' 1 (NUM_FLOORS - 1)) (by decide)
        rw [hfind] at hscan
        obtain ⟨f', hfound, hr⟩ := Option.map_eq_some'.mp hscan
        cases hr
        have hflag : hallFlagged b f' = true := List.find?_some hfound
        have hmem : f' ∈ specScanOrder fl := by
          have : f' ∈ (List.range' 1 (NUM_FLOORS - 1)).flatMap fun i =>
              (if fl + i < NUM_FLOORS then [fl + i] else []) ++
              (if i ≤ fl then [fl - i] else []) :=
            List.mem_of_find?_eq_some hfound
          exact this
        obtain ⟨hlt5, hne⟩ := (mem_specScanOrder h1).mp hmem
        by_cases hflt : fl < f' <;> by_cases hup : upB b f' = true
        · rw [show specSelect b fl f' = .retrieval_above_going_up from by
            simp [specSelect, hflt, hup]]
          refine ⟨h1, by simp, by simp, by simp, by simp, ?_, ?_, ?_⟩
          · intro _
            show (fl : Int) ≤ (f' : Int) ∧ (f' : Int) < (NUM_FLOORS : Int)
            omega
          · rintro (hd | hd) <;> exact direction.noConfusion hd
          · rintro (hd | hd) <;> exact direction.noConfusion hd
        · rw [show specSelect b fl f' = .retrieval_above_going_down from by
            simp [specSelect, hflt, hup]]
          refine ⟨h1, by simp, by simp, by simp, by simp, ?_, ?_, ?_⟩
          · intro _
            show (fl : Int) ≤ (f' : Int) ∧ (f' : Int) < (NUM_FLOORS : Int)
            omega
          · rintro (hd | hd) <;> exact direction.noConfusion hd
          · intro _
            exact ⟨rfl, rfl⟩
        · rw [show specSelect b fl f' = .retrieval_below_going_up from by
            simp [specSelect, hflt, hup]]
          refine ⟨h1, by simp, by simp, by simp, by simp, ?_, ?_, ?_⟩
          · rintro (hd | hd) <;> exact direction.noConfusion hd
          · intro _
            show (0 : Int) ≤ (f' : Int) ∧ (f' : Int) ≤ (fl : Int)
            omega
          · intro _
            exact ⟨rfl, rfl⟩
        · rw [show specSelect b fl f' = .retrieval_below_going_down from by
            simp [specSelect, hflt, hup]]
          refine ⟨h1, by simp, by simp, by simp, by simp, ?_, ?_, ?_⟩
          · rintro (hd | hd) <;> exact direction.noConfusion hd
          · intro _
            show (0 : Int) ≤ (f' : Int) ∧ (f' : Int) ≤ (fl : Int)
            omega
          · rintro (hd | hd) <;> exact direction.noConfusion hd

/-- A stopping scheduler tick preserves the invariant. -/
theorem elevInv_tickStop {s : State} {e' : Elevator}
    (h : ElevInv s) (hstep : moveStep s.board s.elev = .stop e') :
    ElevInv { board := s.board, elev := e' } := by
  obtain ⟨b, e⟩ := s
  obtain ⟨fl, dir, dest, hi, lo⟩ := e
  obtain ⟨h1, h2, h3, h4, h5, h6, h7, h8⟩ := h
  dsimp only at h1 h2 h3 h4 h5 h6 h7 h8
  cases dir
  case up =>
    simp only [moveStep, move_up_one_floor] at hstep
    split_ifs at hstep with hc1 hc2 hc3 <;> cases hstep
    exact ⟨h1, h2, h3, h4, h5, h6, h7, h8⟩
  case down =>
    simp only [moveStep, move_down_one_floor] at hstep
    split_ifs at hstep with hc1 hc2 hc3 <;> cases hstep
    exact ⟨h1, h2, h3, h4, h5, h6, h7, h8⟩
  case retrieval_above_going_up =>
    simp only [moveStep, move_up_one_floor] at hstep
    split_ifs at hstep with hc1 hc2 hc3 hc4 <;> cases hstep
    · exact ⟨h1, h2, h3, h4, h5,
        by rintro (hd | hd) <;> exact direction.noConfusion hd,
        by rintro (hd | hd) <;> exact direction.noConfusion hd,
        by rintro (hd | hd) <;> exact direction.noConfusion hd⟩
    · exact ⟨h1, h2, h3, h4, h5, h6, h7, h8⟩
  case retrieval_above_going_down =>
    simp only [moveStep, move_up_one_floor] at hstep
    split_ifs at hstep with hc1 hc2 hc3 <;> cases hstep
    exact ⟨h1, h2, h3, h4, h5,
      by rintro (hd | hd) <;> exact direction.noConfusion hd,
      by rintro (hd | hd) <;> exact direction.noConfusion hd,
      by rintro (hd | hd) <;> exact direction.noConfusion hd⟩
  case retrieval_below_going_up =>
    simp only [moveStep, move_down_one_floor] at hstep
    split_ifs at hstep with hc1 hc2 hc3 <;> cases hstep
    exact ⟨h1, h2, h3, h4, h5,
      by rintro (hd | hd) <;> exact direction.noConfusion hd,
      by rintro (hd | hd) <;> exact direction.noConfusion hd,
      by rintro (hd | hd) <;> exact direction.noConfusion hd⟩
  case retrieval_below_going_down =>
    simp only [moveStep, move_down_one_floor] at hstep
    split_ifs at hstep with hc1 hc2 hc3 hc4 <;> cases hstep
    · exact ⟨h1, h2, h3, h4, h5,
        by rintro (hd | hd) <;> exact direction.noConfusion hd,
        by rintro (hd | hd) <;> exact direction.noConfusion hd,
        by rintro (hd | hd) <;> exact direction.noConfusion hd⟩
    · exact ⟨h1, h2, h3, h4, h5, h6, h7, h8⟩
  case neutral =>
    simp only [moveStep] at hstep
    split_ifs at hstep with hq
    cases hscan : scanOffsets b fl (List.range' 1 (NUM_FLOORS - 1)) <;>
      rw [hscan] at hstep <;> cases hstep

/-- Under the invariant a scheduler tick never trips the one-floor-move
range asserts. -/
theorem moveStep_no_fault {s : State} (h : ElevInv s) :
    moveStep s.board s.elev ≠ Tick.fault := by
  obtain ⟨b, e⟩ := s
  obtain ⟨fl, dir, dest, hi, lo⟩ := e
  obtain ⟨h1, h2, h3, h4, h5, h6, h7, h8⟩ := h
  dsimp only at h1 h2 h3 h4 h5 h6 h7 h8 ⊢
  have hNF : NUM_FLOORS = 5 := rfl
  intro hstep
  cases dir
  case up =>
    simp only [moveStep, move_up_one_floor] at hstep
    split_ifs at hstep with hc1 hc2 hc3 <;> cases hstep
    cases hi with
    | nil => simp at hc2
    | cons t rest =>
      have htne : t ≠ fl := by
        intro hteq
        exact hc1 (by simp [top_of_pq_equal_floor, hteq])
      have hmemt := h4 t (by simp)
      omega
  case down =>
    simp only [moveStep, move_down_one_floor] at hstep
    split_ifs at hstep with hc1 hc2 hc3 <;> cases hstep
    cases lo with
    | nil => simp at hc2
    | cons t rest =>
      have htne : t ≠ fl := by
        intro hteq
        exact hc1 (by simp [top_of_pq_equal_floor, hteq])
      have hmemt := h5 t (by simp)
      omega
  case retrieval_above_going_up =>
    simp only [moveStep, move_up_one_floor] at hstep
    split_ifs at hstep with hc1 hc2 hc3 hc4 <;> cases hstep
    have hdne : ¬ dest = (fl : Int) := by
      intro hq
      exact hc1 (by simp [hq])
    obtain ⟨hda, hdb⟩ := h6 (Or.inl rfl)
    omega
  case retrieval_above_going_down =>
    simp only [moveStep, move_up_one_floor] at hstep
    split_ifs at hstep with hc1 hc2 hc3 <;> cases hstep
    have hdne : ¬ dest = (fl : Int) := by
      intro hq
      exact hc2 (by simp [hq])
    obtain ⟨hda, hdb⟩ := h6 (Or.inr rfl)
    omega
  case retrieval_below_going_up =>
    simp only [moveStep, move_down_one_floor] at hstep
    split_ifs at hstep with hc1 hc2 hc3 <;> cases hstep
    have hdne : ¬ dest = (fl : Int) := by
      intro hq
      exact hc2 (by simp [hq])
    obtain ⟨hda, hdb⟩ := h7 (Or.inl rfl)
    omega
  case retrieval_below_going_down =>
    simp only [moveStep, move_down_one_floor] at hstep
    split_ifs at hstep with hc1 hc2 hc3 hc4 <;> cases hstep
    have hdne : ¬ dest = (fl : Int) := by
      intro hq
      exact hc1 (by simp [hq])
    obtain ⟨hda, hdb⟩ := h7 (Or.inr rfl)
    omega
  case neutral =>
    simp only [moveStep] at hstep
    split_ifs at hstep with hq
    cases hscan : scanOffsets b fl (List.range' 1 (NUM_FLOORS - 1)) <;>
      rw [hscan] at hstep <;> cases hstep

/-- Every reachable state satisfies the invariant. -/
theorem reachable_elevInv {s : State} (h : Reachable s) : ElevInv s := by
  induction h with
  | reset => exact elevInv_reset
  | hall s f d b' hr hok ih => exact elevInv_board_irrel ih b'
  | cabin s f e' hr hok ih => exact elevInv_cabin ih hok
  | openCycle s e' b' hr hok ih => exact elevInv_open ih hok
  | tick s e' hr hok ih => exact elevInv_tick ih hok
  | tickStop s e' hr hok ih => exact elevInv_tickStop ih hok

/-- Prepend one looping tick to a terminating run. -/
theorem run_cont {b : Board} {e e' : Elevator}
    (hstep : moveStep b e = .cont e') (h : ∃ n x, moveRun b n e' = some x) :
    ∃ n x, moveRun b n e = some x := by
  obtain ⟨n, x, hx⟩ := h
  exact ⟨n + 1, x, by simp [moveRun, hstep, hx]⟩

/-- In Up mode with a non-empty ascending queue whose head is in range on
or above the elevator, the loop reaches a stop. -/
theorem run_up (b : Board) :
    ∀ (k : Nat) (e : Elevator) (t : Nat) (rest : List Nat),
      e.dir = .up → e.higher_floors_pressed = t :: rest →
      e.floor ≤ t → t < NUM_FLOORS → t ≤ e.floor + k →
      ∃ n x, moveRun b n e = some x := by
  intro k
  induction k with
  | zero =>
    intro e t rest hd hq hle hlt hbound
    have ht : t = e.floor := by omega
    refine ⟨1, e, ?_⟩
    have hstep : moveStep b e = .stop e := by
      simp [moveStep, hd, hq, top_of_pq_equal_floor, ht]
    simp [moveRun, hstep]
  | succ k ih =>
    intro e t rest hd hq hle hlt hbound
    by_cases hstop : (upB b e.floor ||
        top_of_pq_equal_floor e.higher_floors_pressed e.floor) = true
    · refine ⟨1, e, ?_⟩
      have hstep : moveStep b e = .stop e := by
        simp [moveStep, hd, hstop]
      simp [moveRun, hstep]
    · have htne : t ≠ e.floor := by
        intro hcontra
        exact hstop (by simp [hq, top_of_pq_equal_floor, hcontra])
      have hNF : NUM_FLOORS = 5 := rfl
      have hflt : e.floor < NUM_FLOORS - 1 := by omega
      have hub : upB b e.floor = false := by
        cases hub : upB b e.floor with
        | false => rfl
        | true => exact absurd (by simp [hub]) hstop
      have htop : top_of_pq_equal_floor (t :: rest) e.floor = false := by
        simp [top_of_pq_equal_floor, htne]
      have hstep : moveStep b e = .cont { e with floor := e.floor + 1 } := by
        simp [moveStep, hd, hq, move_up_one_floor, hflt, hub, htop]
      refine run_cont hstep ?_
      exact ih { e with floor := e.floor + 1 } t rest (by simp [hd]) (by simp [hq])
        (by simp only; omega) hlt (by simp only; omega)

/-- In Down mode with a non-empty descending queue whose head is on or
below the elevator, the loop reaches a stop. -/
theorem run_down (b : Board) :
    ∀ (k : Nat) (e : Elevator) (t : Nat) (rest : List Nat),
      e.dir = .down → e.lower_floors_pressed = t :: rest →
      t ≤ e.floor → e.floor ≤ t + k →
      ∃ n x, moveRun b n e = some x := by
  intro k
  induction k with
  | zero =>
    intro e t rest hd hq hle hbound
    have ht : t = e.floor := by omega
    refine ⟨1, e, ?_⟩
    have hstep : moveStep b e = .stop e := by
      simp [moveStep, hd, hq, top_of_pq_equal_floor, ht]
    simp [moveRun, hstep]
  | succ k ih =>
    intro e t rest hd hq hle hbound
    by_cases hstop : (downB b e.floor ||
        top_of_pq_equal_floor e.lower_floors_pressed e.floor) = true
    · refine ⟨1, e, ?_⟩
      have hstep : moveStep b e = .stop e := by
        simp [moveStep, hd, hstop]
      simp [moveRun, hstep]
    · have htne : t ≠ e.floor := by
        intro hcontra
        exact hstop (by simp [hq, top_of_pq_equal_floor, hcontra])
      have hflt : 0 < e.floor := by omega
      have hdb : downB b e.floor = false := by
        cases hdb : downB b e.floor with
        | false => rfl
        | true => exact absurd (by simp [hdb]) hstop
      have htop : top_of_pq_equal_floor (t :: rest) e.floor = false := by
        simp [top_of_pq_equal_floor, htne]
      have hstep : moveStep b e = .cont { e with floor := e.floor - 1 } := by
        simp [moveStep, hd, hq, move_down_one_floor, hflt, hdb, htop]
      refine run_cont hstep ?_
      exact ih { e with floor := e.floor - 1 } t rest (by simp [hd]) (by simp [hq])
        (by simp only; omega) (by simp only; omega)

/-- In retrieval_above_going_up with the destination's up flag set, the
loop reaches a stop (at the destination at the latest). -/
theorem run_rau (b : Board) :
    ∀ (k : Nat) (e : Elevator) (d : Nat),
      e.dir = .retrieval_above_going_up → e.destination = (d : Int) →
      e.floor ≤ d → d < NUM_FLOORS → upB b d = true → d ≤ e.floor + k →
      ∃ n x, moveRun b n e = some x := by
  intro k
  induction k with
  | zero =>
    intro e d hd hdest hle hlt hub hbound
    have hdfl : d = e.floor := by omega
    have hstop : (upB b e.floor || e.destination == (e.floor : Int) ||
        top_of_pq_equal_floor e.higher_floors_pressed e.floor) = true := by
      simp [hdest, hdfl]
    have hstep : moveStep b e = .stop { e with destination := -1, dir := .up } := by
      simp only [moveStep, hd]
      rw [if_pos hstop]
      simp [hdest, hdfl]
    exact ⟨1, { e with destination := -1, dir := .up }, by simp [moveRun, hstep]⟩
  | succ k ih =>
    intro e d hd hdest hle hlt hub hbound
    by_cases hstop : (upB b e.floor || e.destination == (e.floor : Int) ||
        top_of_pq_equal_floor e.higher_floors_pressed e.floor) = true
    · by_cases hdfl : (e.destination == (e.floor : Int)) = true
      · have hstep : moveStep b e = .stop { e with destination := -1, dir := .up } := by
          simp only [moveStep, hd]
          rw [if_pos hstop]
          simp [hdfl]
        exact ⟨1, { e with destination := -1, dir := .up }, by simp [moveRun, hstep]⟩
      · have hstep : moveStep b e = .stop e := by
          simp only [moveStep, hd]
          rw [if_pos hstop]
          simp [hdfl]
        exact ⟨1, e, by simp [moveRun, hstep]⟩
    · have hdne : d ≠ e.floor := by
        intro hcontra
        exact hstop (by simp [hdest, hcontra])
      have hNF : NUM_FLOORS = 5 := rfl
      have hflt : e.floor < NUM_FLOORS - 1 := by omega
      have htn : e.destination.toNat = d := by simp [hdest]
      have hub' : upB b e.floor = false := by
        cases hub' : upB b e.floor with
        | false => rfl
        | true => exact absurd (by simp [hub']) hstop
      have hbe : (e.destination == (e.floor : Int)) = false := by
        simp [hdest]
        omega
      have htop : top_of_pq_equal_floor e.higher_floors_pressed e.floor = false := by
        cases htop : top_of_pq_equal_floor e.higher_floors_pressed e.floor with
        | false => rfl
        | true => exact absurd (by simp [htop]) hstop
      have hstep : moveStep b e = .cont { e with floor := e.floor + 1 } := by
        simp [moveStep, hd, hub', hbe, htop, htn, hub, move_up_one_floor, hflt]
      refine run_cont hstep ?_
      exact ih { e with floor := e.floor + 1 } d (by simp [hd]) (by simp [hdest])
        (by simp only; omega) hlt hub (by simp only; omega)

/-- In retrieval_above_going_down with the destination's down flag set,
the loop reaches the destination and stops. -/
theorem run_rad (b : Board) :
    ∀ (k : Nat) (e : Elevator) (d : Nat),
      e.dir = .retrieval_above_going_down → e.destination = (d : Int) →
      e.floor ≤ d → d < NUM_FLOORS → downB b d = true → d ≤ e.floor + k →
      ∃ n x, moveRun b n e = some x := by
  intro k
  induction k with
  | zero =>
    intro e d hd hdest hle hlt hdb hbound
    have hdfl : d = e.floor := by omega
    have hdb' : downB b e.destination.toNat = true := by
      rw [show e.destination.toNat = d from by simp [hdest]]
      exact hdb
    have hbe : (e.destination == (e.floor : Int)) = true := by
      simp [hdest, hdfl]
    have hstep : moveStep b e = .stop { e with destination := -1, dir := .down } := by
      simp [moveStep, hd, hdb', hbe]
    exact ⟨1, { e with destination := -1, dir := .down }, by simp [moveRun, hstep]⟩
  | succ k ih =>
    intro e d hd hdest hle hlt hdb hbound
    have hdb' : downB b e.destination.toNat = true := by
      rw [show e.destination.toNat = d from by simp [hdest]]
      exact hdb
    by_cases hdfl : d = e.floor
    · have hbe : (e.destination == (e.floor : Int)) = true := by
        simp [hdest, hdfl]
      have hstep : moveStep b e = .stop { e with destination := -1, dir := .down } := by
        simp [moveStep, hd, hdb', hbe]
      exact ⟨1, { e with destination := -1, dir := .down }, by simp [moveRun, hstep]⟩
    · have hNF : NUM_FLOORS = 5 := rfl
      have hflt : e.floor < NUM_FLOORS - 1 := by omega
      have hbe : (e.destination == (e.floor : Int)) = false := by
        simp [hdest]
        omega
      have hstep : moveStep b e = .cont { e with floor := e.floor + 1 } := by
        simp [moveStep, hd, hdb', hbe, move_up_one_floor, hflt]
      refine run_cont hstep ?_
      exact ih { e with floor := e.floor + 1 } d (by simp [hd]) (by simp [hdest])
        (by simp only; omega) hlt hdb (by simp only; omega)

/-- In retrieval_below_going_up with the destination's up flag set, the
loop reaches the destination and stops. -/
theorem run_rbu (b : Board) :
    ∀ (k : Nat) (e : Elevator) (d : Nat),
      e.dir = .retrieval_below_going_up → e.destination = (d : Int) →
      d ≤ e.floor → upB b d = true → e.floor ≤ d + k →
      ∃ n x, moveRun b n e = some x := by
  intro k
  induction k with
  | zero =>
    intro e d hd hdest hle hub hbound
    have hdfl : d = e.floor := by omega
    have hub' : upB b e.destination.toNat = true := by
      rw [show e.destination.toNat = d from by simp [hdest]]
      exact hub
    have hbe : (e.destination == (e.floor : Int)) = true := by
      simp [hdest, hdfl]
    have hstep : moveStep b e = .stop { e with destination := -1, dir := .up } := by
      simp [moveStep, hd, hub', hbe]
    exact ⟨1, { e with destination := -1, dir := .up }, by simp [moveRun, hstep]⟩
  | succ k ih =>
    intro e d hd hdest hle hub hbound
    have hub' : upB b e.destination.toNat = true := by
      rw [show e.destination.toNat = d from by simp [hdest]]
      exact hub
    by_cases hdfl : d = e.floor
    · have hbe : (e.destination == (e.floor : Int)) = true := by
        simp [hdest, hdfl]
      have hstep : moveStep b e = .stop { e with destination := -1, dir := .up } := by
        simp [moveStep, hd, hub', hbe]
      exact ⟨1, { e with destination := -1, dir := .up }, by simp [moveRun, hstep]⟩
    · have hflt : 0 < e.floor := by omega
      have hbe : (e.destination == (e.floor : Int)) = false := by
        simp [hdest]
        omega
      have hstep : moveStep b e = .cont { e with floor := e.floor - 1 } := by
        simp [moveStep, hd, hub', hbe, move_down_one_floor, hflt]
      refine run_cont hstep ?_
      exact ih { e with floor := e.floor - 1 } d (by simp [hd]) (by simp [hdest])
        (by simp only; omega) hub (by simp only; omega)

/-- In retrieval_below_going_down with the destination's down flag set,
the loop reaches a stop (at the destination at the latest). -/
theorem run_rbd (b : Board) :
    ∀ (k : Nat) (e : Elevator) (d : Nat),
      e.dir = .retrieval_below_going_down → e.destination = (d : Int) →
      d ≤ e.floor → downB b d = true → e.floor ≤ d + k →
      ∃ n x, moveRun b n e = some x := by
  intro k
  induction k with
  | zero =>
    intro e d hd hdest hle hdb hbound
    have hdfl : d = e.floor := by omega
    have hstop : (downB b e.floor || e.destination == (e.floor : Int) ||
        top_of_pq_equal_floor e.lower_floors_pressed e.floor) = true := by
      simp [hdest, hdfl]
    have hstep : moveStep b e = .stop { e with destination := -1, dir := .down } := by
      simp only [moveStep, hd]
      rw [if_pos hstop]
      simp [hdest, hdfl]
    exact ⟨1, { e with destination := -1, dir := .down }, by simp [moveRun, hstep]⟩
  | succ k ih =>
    intro e d hd hdest hle hdb hbound
    by_cases hstop : (downB b e.floor || e.destination == (e.floor : Int) ||
        top_of_pq_equal_floor e.lower_floors_pressed e.floor) = true
    · by_cases hdfl : (e.destination == (e.floor : Int)) = true
      · have hstep : moveStep b e = .stop { e with destination := -1, dir := .down } := by
          simp only [moveStep, hd]
          rw [if_pos hstop]
          simp [hdfl]
        exact ⟨1, { e with destination := -1, dir := .down }, by simp [moveRun, hstep]⟩
      · have hstep : moveStep b e = .stop e := by
          simp only [moveStep, hd]
          rw [if_pos hstop]
          simp [hdfl]
        exact ⟨1, e, by simp [moveRun, hstep]⟩
    · have hdne : d ≠ e.floor := by
        intro hcontra
        exact hstop (by simp [hdest, hcontra])
      have hflt : 0 < e.floor := by omega
      have htn : e.destination.toNat = d := by simp [hdest]
      have hdb' : downB b e.floor = false := by
        cases hdb' : downB b e.floor with
        | false => rfl
        | true => exact absurd (by simp [hdb']) hstop
      have hbe : (e.destination == (e.floor : Int)) = false := by
        simp [hdest]
        omega
      have htop : top_of_pq_equal_floor e.lower_floors_pressed e.floor = false := by
        cases htop : top_of_pq_equal_floor e.lower_floors_pressed e.floor with
        | false => rfl
        | true => exact absurd (by simp [htop]) hstop
      have hstep : moveStep b e = .cont { e with floor := e.floor - 1 } := by
        simp [moveStep, hd, hdb', hbe, htop, htn, hdb, move_down_one_floor, hflt]
      refine run_cont hstep ?_
      exact ih { e with floor := e.floor - 1 } d (by simp [hd]) (by simp [hdest])
        (by simp only; omega) hdb (by simp only; omega)

/-- In Neutral, with either a pending cabin request or a hall-call flag at
some other floor, the loop reaches a stop. -/
theorem run_neutral (b : Board) (e : Elevator) (hd : e.dir = .neutral)
    (hfl : e.floor < NUM_FLOORS)
    (hmemh : ∀ x ∈ e.higher_floors_pressed, e.floor ≤ x ∧ x < NUM_FLOORS)
    (hmeml : ∀ x ∈ e.lower_floors_pressed, x ≤ e.floor)
    (hpre : e.higher_floors_pressed ≠ [] ∨ e.lower_floors_pressed ≠ [] ∨
            ∃ f, f < NUM_FLOORS ∧ f ≠ e.floor ∧ hallFlagged b f = true) :
    ∃ n x, moveRun b n e = some x := by
  have hNF : NUM_FLOORS = 5 := rfl
  by_cases hq : (!e.higher_floors_pressed.isEmpty || !e.lower_floors_pressed.isEmpty) = true
  · by_cases hlen : e.higher_floors_pressed.length > e.lower_floors_pressed.length
    · have hhne : e.higher_floors_pressed ≠ [] := by
        intro hnil
        rw [hnil] at hlen
        simp at hlen
      obtain ⟨t, rest, hq2⟩ : ∃ t rest, e.higher_floors_pressed = t :: rest := by
        cases hh : e.higher_floors_pressed with
        | nil => exact absurd hh hhne
        | cons a as => exact ⟨a, as, rfl⟩
      have hmt := hmemh t (by rw [hq2]; exact List.mem_cons_self t rest)
      have hstep : moveStep b e = .cont { e with dir := .up } := by
        simp [moveStep, hd, hq, hlen]
      refine run_cont hstep ?_
      exact run_up b 5 { e with dir := .up } t rest rfl (by simp [hq2])
        (by simp only; exact hmt.1) hmt.2 (by simp only; omega)
    · have hlne : e.lower_floors_pressed ≠ [] := by
        intro hnil
        rw [hnil] at hlen hq
        cases hh : e.higher_floors_pressed with
        | nil => rw [hh] at hq; simp at hq
        | cons a as => rw [hh] at hlen; simp at hlen
      obtain ⟨t, rest, hq2⟩ : ∃ t rest, e.lower_floors_pressed = t :: rest := by
        cases hh : e.lower_floors_pressed with
        | nil => exact absurd hh hlne
        | cons a as => exact ⟨a, as, rfl⟩
      have hmt := hmeml t (by rw [hq2]; exact List.mem_cons_self t rest)
      have hstep : moveStep b e = .cont { e with dir := .down } := by
        simp [moveStep, hd, hq, hlen]
      refine run_cont hstep ?_
      exact run_down b 5 { e with dir := .down } t rest rfl (by simp [hq2])
        (by simp only; exact hmt) (by simp only; omega)
  · have hhiE : e.higher_floors_pressed = [] := by
      cases hh : e.higher_floors_pressed with
      | nil => rfl
      | cons a as => exact absurd (by simp [hh]) hq
    have hloE : e.lower_floors_pressed = [] := by
      cases hh : e.lower_floors_pressed with
      | nil => rfl
      | cons a as => exact absurd (by simp [hh]) hq
    obtain ⟨f, hflt5, hfne, hflag⟩ :
        ∃ f, f < NUM_FLOORS ∧ f ≠ e.floor ∧ hallFlagged b f = true := by
      rcases hpre with h | h | h
      · exact absurd hhiE h
      · exact absurd hloE h
      · exact h
    have hfind := scanOffsets_eq_find b e.floor (List.range' 1 (NUM_FLOORS - 1)) (by decide)
    have hsome : ((specScanOrder e.floor).find? (hallFlagged b)).isSome := by
      rw [List.find?_isSome]
      exact ⟨f, (mem_specScanOrder hfl).mpr ⟨hflt5, hfne⟩, hflag⟩
    obtain ⟨f', hf'⟩ := Option.isSome_iff_exists.mp hsome
    have hflag' : hallFlagged b f' = true := List.find?_some hf'
    obtain ⟨hf'lt, hf'ne⟩ := (mem_specScanOrder hfl).mp (List.mem_of_find?_eq_some hf')
    have hscan : scanOffsets b e.floor (List.range' 1 (NUM_FLOORS - 1)) =
        some (specSelect b e.floor f', f') := by
      rw [hfind]
      show ((specScanOrder e.floor).find? (hallFlagged b)).map
        (fun f => (specSelect b e.floor f, f)) = _
      rw [hf']
      rfl
    have hstep : moveStep b e =
        .cont { e with dir := specSelect b e.floor f', destination := (f' : Int) } := by
      simp [moveStep, hd, hhiE, hloE, hscan]
    refine run_cont hstep ?_
    by_cases hflt : e.floor < f' <;> by_cases hup : upB b f' = true
    · rw [show specSelect b e.floor f' = .retrieval_above_going_up from by
        simp [specSelect, hflt, hup]]
      exact run_rau b 5 _ f' rfl rfl (by simp only; omega) hf'lt hup (by simp only; omega)
    · have hdn : downB b f' = true := by
        have hor : upB b f' = true ∨ downB b f' = true := by
          cases hu : upB b f' with
          | true => exact Or.inl rfl
          | false =>
            cases hw : downB b f' with
            | true => exact Or.inr rfl
            | false => simp [hallFlagged, hu, hw] at hflag'
        rcases hor with h | h
        · exact absurd h hup
        · exact h
      rw [show specSelect b e.floor f' = .retrieval_above_going_down from by
        simp [specSelect, hflt, hup]]
      exact run_rad b 5 _ f' rfl rfl (by simp only; omega) hf'lt hdn (by simp only; omega)
    · rw [show specSelect b e.floor f' = .retrieval_below_going_up from by
        simp [specSelect, hflt, hup]]
      exact run_rbu b 5 _ f' rfl rfl (by simp only; omega) hup (by simp only; omega)
    · have hdn : downB b f' = true := by
        have hor : upB b f' = true ∨ downB b f' = true := by
          cases hu : upB b f' with
          | true => exact Or.inl rfl
          | false =>
            cases hw : downB b f' with
            | true => exact Or.inr rfl
            | false => simp [hallFlagged, hu, hw] at hflag'
        rcases hor with h | h
        · exact absurd h hup
        · exact h
      rw [show specSelect b e.floor f' = .retrieval_below_going_down from by
        simp [specSelect, hflt, hup]]
      exact run_rbd b 5 _ f' rfl rfl (by simp only; omega) hdn (by simp only; omega)

/-- Claim C7.  Liveness: from any reachable state in which the elevator has
a pending cabin request in either queue, or some hall-call flag is set at a
floor other than the elevator's own (the floors the Neutral offset scan can
reach), iterating the scheduling loop reaches a stop decision in finitely
many steps. -/
theorem C7_liveness (s : State) (hr : Reachable s)
    (hpre : s.elev.higher_floors_pressed ≠ [] ∨ s.elev.lower_floors_pressed ≠ [] ∨
            ∃ f, f < NUM_FLOORS ∧ f ≠ s.elev.floor ∧ hallFlagged s.board f = true) :
    ∃ n x, moveRun s.board n s.elev = some x := by
  have inv := reachable_elevInv hr
  have hNF : NUM_FLOORS = 5 := rfl
  have hfl5 := inv.floor_lt
  cases hdir : s.elev.dir
  case neutral =>
    exact run_neutral s.board s.elev hdir inv.floor_lt inv.higher_mem inv.lower_mem hpre
  case up =>
    cases hh : s.elev.higher_floors_pressed with
    | cons t rest =>
      have hmt := inv.higher_mem t (by rw [hh]; exact List.mem_cons_self t rest)
      exact run_up s.board 5 s.elev t rest hdir hh hmt.1 hmt.2 (by omega)
    | nil =>
      by_cases hub : upB s.board s.elev.floor = true
      · have hstep : moveStep s.board s.elev = .stop s.elev := by
          simp [moveStep, hdir, hub]
        exact ⟨1, s.elev, by simp [moveRun, hstep]⟩
      · have hub' : upB s.board s.elev.floor = false := by
          cases h : upB s.board s.elev.floor
          · rfl
          · exact absurd h hub
        have hstep : moveStep s.board s.elev = .cont { s.elev with dir := .neutral } := by
          simp [moveStep, hdir, hub', hh, top_of_pq_equal_floor]
        refine run_cont hstep ?_
        refine run_neutral s.board _ rfl inv.floor_lt inv.higher_mem inv.lower_mem ?_
        rcases hpre with h | h | h
        · exact absurd hh h
        · exact Or.inr (Or.inl h)
        · exact Or.inr (Or.inr h)
  case down =>
    cases hh : s.elev.lower_floors_pressed with
    | cons t rest =>
      have hmt := inv.lower_mem t (by rw [hh]; exact List.mem_cons_self t rest)
      exact run_down s.board 5 s.elev t rest hdir hh hmt (by omega)
    | nil =>
      by_cases hdb : downB s.board s.elev.floor = true
      · have hstep : moveStep s.board s.elev = .stop s.elev := by
          simp [moveStep, hdir, hdb]
        exact ⟨1, s.elev, by simp [moveRun, hstep]⟩
      · have hdb' : downB s.board s.elev.floor = false := by
          cases h : downB s.board s.elev.floor
          · rfl
          · exact absurd h hdb
        have hstep : moveStep s.board s.elev = .cont { s.elev with dir := .neutral } := by
          simp [moveStep, hdir, hdb', hh, top_of_pq_equal_floor]
        refine run_cont hstep ?_
        refine run_neutral s.board _ rfl inv.floor_lt inv.higher_mem inv.lower_mem ?_
        rcases hpre with h | h | h
        · exact Or.inl h
        · exact absurd hh h
        · exact Or.inr (Or.inr h)
  case retrieval_above_going_up =>
    obtain ⟨hda, hdb⟩ := inv.dest_above (Or.inl hdir)
    have hd0 : 0 ≤ s.elev.destination := by omega
    have hdest : s.elev.destination = (s.elev.destination.toNat : Int) :=
      (Int.toNat_of_nonneg hd0).symm
    have hdlt : s.elev.destination.toNat < NUM_FLOORS := by omega
    have hdle : s.elev.floor ≤ s.elev.destination.toNat := by omega
    by_cases hub : upB s.board s.elev.destination.toNat = true
    · exact run_rau s.board 5 s.elev s.elev.destination.toNat hdir hdest hdle hdlt hub
        (by omega)
    · by_cases hstop : (upB s.board s.elev.floor ||
          s.elev.destination == (s.elev.floor : Int) ||
          top_of_pq_equal_floor s.elev.higher_floors_pressed s.elev.floor) = true
      · by_cases hdfl : (s.elev.destination == (s.elev.floor : Int)) = true
        · have hstep : moveStep s.board s.elev =
              .stop { s.elev with destination := -1, dir := .up } := by
            simp only [moveStep, hdir]
            rw [if_pos hstop]
            simp [hdfl]
          exact ⟨1, { s.elev with destination := -1, dir := .up },
            by simp [moveRun, hstep]⟩
        · have hstep : moveStep s.board s.elev = .stop s.elev := by
            simp only [moveStep, hdir]
            rw [if_pos hstop]
            simp [hdfl]
          exact ⟨1, s.elev, by simp [moveRun, hstep]⟩
      · have hub'' : upB s.board s.elev.destination.toNat = false := by
          cases h : upB s.board s.elev.destination.toNat
          · rfl
          · exact absurd h hub
        have hstep : moveStep s.board s.elev =
            .cont { s.elev with dir := .neutral, destination := -1 } := by
          simp only [moveStep, hdir]
          rw [if_neg hstop]
          simp [hub'']
        refine run_cont hstep ?_
        exact run_neutral s.board _ rfl inv.floor_lt inv.higher_mem inv.lower_mem hpre
  case retrieval_above_going_down =>
    obtain ⟨hda, hdb⟩ := inv.dest_above (Or.inr hdir)
    have hd0 : 0 ≤ s.elev.destination := by omega
    have hdest : s.elev.destination = (s.elev.destination.toNat : Int) :=
      (Int.toNat_of_nonneg hd0).symm
    have hdlt : s.elev.destination.toNat < NUM_FLOORS := by omega
    have hdle : s.elev.floor ≤ s.elev.destination.toNat := by omega
    by_cases hdn : downB s.board s.elev.destination.toNat = true
    · exact run_rad s.board 5 s.elev s.elev.destination.toNat hdir hdest hdle hdlt hdn
        (by omega)
    · have hdn' : downB s.board s.elev.destination.toNat = false := by
        cases h : downB s.board s.elev.destination.toNat
        · rfl
        · exact absurd h hdn
      have hstep : moveStep s.board s.elev =
          .cont { s.elev with dir := .neutral, destination := -1 } := by
        simp [moveStep, hdir, hdn']
      refine run_cont hstep ?_
      exact run_neutral s.board _ rfl inv.floor_lt inv.higher_mem inv.lower_mem hpre
  case retrieval_below_going_up =>
    obtain ⟨hda, hdb⟩ := inv.dest_below (Or.inl hdir)
    have hdest : s.elev.destination = (s.elev.destination.toNat : Int) :=
      (Int.toNat_of_nonneg hda).symm
    have hdle : s.elev.destination.toNat ≤ s.elev.floor := by omega
    by_cases hub : upB s.board s.elev.destination.toNat = true
    · exact run_rbu s.board 5 s.elev s.elev.destination.toNat hdir hdest hdle hub
        (by omega)
    · have hub'' : upB s.board s.elev.destination.toNat = false := by
        cases h : upB s.board s.elev.destination.toNat
        · rfl
        · exact absurd h hub
      have hstep : moveStep s.board s.elev =
          .cont { s.elev with dir := .neutral, destination := -1 } := by
        simp [moveStep, hdir, hub'']
      refine run_cont hstep ?_
      exact run_neutral s.board _ rfl inv.floor_lt inv.higher_mem inv.lower_mem hpre
  case retrieval_below_going_down =>
    obtain ⟨hda, hdb⟩ := inv.dest_below (Or.inr hdir)
    have hdest : s.elev.destination = (s.elev.destination.toNat : Int) :=
      (Int.toNat_of_nonneg hda).symm
    have hdle : s.elev.destination.toNat ≤ s.elev.floor := by omega
    by_cases hdn : downB s.board s.elev.destination.toNat = true
    · exact run_rbd s.board 5 s.elev s.elev.destination.toNat hdir hdest hdle hdn
        (by omega)
    · by_cases hstop : (downB s.board s.elev.floor ||
          s.elev.destination == (s.elev.floor : Int) ||
          top_of_pq_equal_floor s.elev.lower_floors_pressed s.elev.floor) = true
      · by_cases hdfl : (s.elev.destination == (s.elev.floor : Int)) = true
        · have hstep : moveStep s.board s.elev =
              .stop { s.elev with destination := -1, dir := .down } := by
            simp only [moveStep, hdir]
            rw [if_pos hstop]
            simp [hdfl]
          exact ⟨1, { s.elev with destination := -1, dir := .down },
            by simp [moveRun, hstep]⟩
        · have hstep : moveStep s.board s.elev = .stop s.elev := by
            simp only [moveStep, hdir]
            rw [if_pos hstop]
            simp [hdfl]
          exact ⟨1, s.elev, by simp [moveRun, hstep]⟩
      · have hdn' : downB s.board s.elev.destination.toNat = false := by
          cases h : downB s.board s.elev.destination.toNat
          · rfl
          · exact absurd h hdn
        have hstep : moveStep s.board s.elev =
            .cont { s.elev with dir := .neutral, destination := -1 } := by
          simp only [moveStep, hdir]
          rw [if_neg hstop]
          simp [hdn']
        refine run_cont hstep ?_
        exact run_neutral s.board _ rfl inv.floor_lt inv.higher_mem inv.lower_mem hpre

/-- Witness for C7: from reset, one cabin request for floor 2 yields a
reachable state with a pending request, and the run terminates. -/
theorem C7_liveness_witness :
    ∃ n x, moveRun resetBoard n
      { floor := 0, dir := .neutral, destination := -1
        higher_floors_pressed := [2], lower_floors_pressed := [] } = some x := by
  have hreach : Reachable { board := resetBoard
                            elev := { floor := 0, dir := .neutral, destination := -1
                                      higher_floors_pressed := [2]
                                      lower_floors_pressed := [] } } :=
    Reachable.cabin resetState 2 _ Reachable.reset rfl
  exact C7_liveness _ hreach (Or.inl (by simp))

/-- Claim C8.  Floor-bounds safety: in every reachable state the floor is
in range, a scheduler tick never trips the one-floor-move range asserts
(never moves up from the top floor nor down from the bottom floor), and
the only operations that change the floor are the one-floor moves inside
the scheduler and the reset to the bottom floor — cabin requests and the
open cycle leave it unchanged. -/
theorem C8_floor_safety (s : State) (hr : Reachable s) :
    s.elev.floor < NUM_FLOORS ∧
    moveStep s.board s.elev ≠ Tick.fault ∧
    (∀ (f : Nat) (e' : Elevator), press_inside s.elev f = .ok e' → e'.floor = s.elev.floor) ∧
    (∀ p : Elevator × Board, openOp s.elev s.board = .ok p → p.1.floor = s.elev.floor) := by
  have inv := reachable_elevInv hr
  exact ⟨inv.floor_lt, moveStep_no_fault inv,
    fun f e' h => (press_inside_cases h).2.1,
    fun p h => (openOp_cases h).1⟩

/-- Witness for C8: at the reset state the floor is in range and the first
tick does not fault. -/
theorem C8_floor_safety_witness :
    resetState.elev.floor < NUM_FLOORS ∧
    moveStep resetState.board resetState.elev ≠ Tick.fault := by
  obtain ⟨h1, h2, -, -⟩ := C8_floor_safety resetState Reachable.reset
  exact ⟨h1, h2⟩

/-- Claim C10.  In every reachable state, an elevator in
retrieval_above_going_down or retrieval_below_going_up has both cabin
queues empty: those modes are only entered by the Neutral search (which
runs with both queues empty), a cabin request arriving in one of them
resets the mode before inserting, and open() only removes entries. -/
theorem C10_retrieval_queues_empty (s : State) (hr : Reachable s)
    (hd : s.elev.dir = .retrieval_above_going_down ∨
          s.elev.dir = .retrieval_below_going_up) :
    s.elev.higher_floors_pressed = [] ∧ s.elev.lower_floors_pressed = [] :=
  (reachable_elevInv hr).mismatch_empty hd

/-- Witness for C10: the reachable state in retrieval_above_going_down
produced by a down hall call and one tick from reset has empty queues. -/
theorem C10_retrieval_queues_empty_witness :
    Elevator.higher_floors_pressed
      { floor := 0, dir := .retrieval_above_going_down, destination := 1
        higher_floors_pressed := [], lower_floors_pressed := [] } = [] ∧
    Elevator.lower_floors_pressed
      { floor := 0, dir := .retrieval_above_going_down, destination := 1
        higher_floors_pressed := [], lower_floors_pressed := [] } = [] := by
  have h1 : Reachable { board := { up_button := [false, false, false, false, false]
                                   down_button := [false, true, false, false, false] }
                        elev := resetElev } :=
    Reachable.hall resetState 2 .down _ Reachable.reset rfl
  have h2 : Reachable { board := { up_button := [false, false, false, false, false]
                                   down_button := [false, true, false, false, false] }
                        elev := { floor := 0, dir := .retrieval_above_going_down
                                  destination := 1
                                  higher_floors_pressed := []
                                  lower_floors_pressed := [] } } :=
    Reachable.tick _ _ h1 rfl
  exact C10_retrieval_queues_empty _ h2 (Or.inl rfl)
